import Mathlib

/-
  Verification development for the viet-listener translation backend.

  The definitions below are a shallow embedding of the TypeScript sources
  (server.ts and the audio-processing script).  JavaScript strings are
  modelled as Lean String values; the string helpers used by the embedding
  (lowerStr, trimStr, splitStr, joinSpace) are char-list implementations of
  String.prototype.toLowerCase, trim, split(sep) for a one-character
  separator, and Array.prototype.join(sep).  JavaScript objects used as
  phrase tables are modelled as functions String to Option String, the
  Map-based translation cache as a function from key strings to
  Option String, and JavaScript truthiness of a looked-up string (undefined
  or the empty string are falsy) by the function truthy below.
-/

-- ───────────────────────── string helpers ─────────────────────────

/-- Char-list model of String.prototype.toLowerCase. -/
def lowerStr (s : String) : String := String.mk (s.data.map Char.toLower)

/-- Split a char list at every occurrence of the separator, keeping empty
pieces, exactly like String.prototype.split with a one-char separator. -/
def splitChars (sep : Char) : List Char → List (List Char)
  | [] => [[]]
  | c :: cs =>
    let r := splitChars sep cs
    if c = sep then [] :: r
    else
      match r with
      | [] => [[c]]
      | w :: ws => (c :: w) :: ws

/-- String.prototype.split with a one-character separator. -/
def splitStr (sep : Char) (s : String) : List String := (splitChars sep s.data).map String.mk

/-- Drop leading and trailing whitespace from a char list. -/
def trimChars (cs : List Char) : List Char :=
  ((cs.dropWhile Char.isWhitespace).reverse.dropWhile Char.isWhitespace).reverse

/-- String.prototype.trim. -/
def trimStr (s : String) : String := String.mk (trimChars s.data)

/-- Join char-list words with a single separator char between them,
like Array.prototype.join for a one-char separator. -/
def joinChars (sep : Char) : List (List Char) → List Char
  | [] => []
  | [w] => w
  | w :: ws => w ++ sep :: joinChars sep ws

/-- Array.prototype.join applied with separator a single space. -/
def joinSpace (l : List String) : String := String.mk (joinChars ' ' (l.map String.data))

-- ───────────────────────── normalizer ─────────────────────────

/-- The punctuation class removed by both segmentation functions:
the regex character class of periods, commas, bangs, question marks,
semicolons, colons, double quotes, apostrophes, parentheses, square
brackets and curly brackets (the source regex repeats the quote chars). -/
def punctuationChars : List Char :=
  ['.', ',', '!', '?', ';', ':', '\"', '\'', '(', ')', '[', ']', '\x7b', '\x7d']

/-- The replace(punctuation, space) pass of the normalizer. -/
def stripPunct (cs : List Char) : List Char :=
  cs.map (fun c => if punctuationChars.contains c then ' ' else c)

/-- The replace of every whitespace run by a single space: a run of
whitespace chars collapses to one space char, everything else is kept. -/
def collapseWS : List Char → List Char
  | [] => []
  | [c] => if c.isWhitespace then [' '] else [c]
  | c :: d :: cs =>
    if c.isWhitespace && d.isWhitespace then collapseWS (d :: cs)
    else (if c.isWhitespace then ' ' else c) :: collapseWS (d :: cs)

/-- The normalizer shared by segmentVietnamese and smartSegmentAndTranslate:
trim, replace punctuation by spaces, collapse whitespace runs to single
spaces, split on spaces, and keep the nonempty tokens. -/
def normalizeSyllables (text : String) : List String :=
  ((splitChars ' ' (collapseWS (stripPunct (trimChars text.data)))).filter
    (fun w => !w.isEmpty)).map String.mk

-- ───────────────────────── lexicon lookup ─────────────────────────

/-- JavaScript truthiness of a dictionary lookup result: undefined and the
empty string are falsy. -/
def truthy : Option String → Option String
  | some s => if s = "" then none else some s
  | none => none

/-- The lookup pattern used everywhere in the source: the lowercased
phrase is tried first, the exact phrase second, and a falsy (empty) entry
counts as absent. -/
def dictLookup (dict : String → Option String) (phrase : String) : Option String :=
  match truthy (dict (lowerStr phrase)) with
  | some e => some e
  | none => truthy (dict phrase)

-- ───────────────────────── candidate spans and scoring ─────────────────────────

/-- One candidate span cell of the spans table of smartSegmentAndTranslate. -/
structure Span where
  text : String
  translation : String
  fromDictionary : Bool
  score : Int

/-- Steps 1 and 2 of smartSegmentAndTranslate for one cell: the phrase is
the space-join of the syllable slice; a lexicon hit gives a dictionary
span with score len times 10, otherwise the translation oracle supplies
the translation and the score is filled in later.  The oracle argument
models the batched translation backend as a per-phrase function, which is
exact because the cache makes repeated texts translate identically.  The
branch of the source taken when no API key is set equals this definition
with the identity oracle. -/
def mkSpan (dict : String → Option String) (oracle : String → String)
    (sylls : List String) (i len : Nat) : Span :=
  let phrase := joinSpace ((sylls.drop i).take len)
  match dictLookup dict phrase with
  | some e => { text := phrase, translation := e, fromDictionary := true, score := (len : Int) * 10 }
  | none => { text := phrase, translation := oracle phrase, fromDictionary := false, score := 0 }

/-- The first-listed sense of the single-syllable span at position p:
first comma-component of its translation, trimmed then lowercased. -/
def firstSense (dict : String → Option String) (oracle : String → String)
    (sylls : List String) (p : Nat) : String :=
  lowerStr (trimStr ((splitStr ',' (mkSpan dict oracle sylls p 1).translation).headD ""))

/-- The expected non-compound translation: forward space-join of the
first-listed senses of the single-syllable sub-spans. -/
def expectedConcat (dict : String → Option String) (oracle : String → String)
    (sylls : List String) (i len : Nat) : String :=
  joinSpace ((List.range len).map (fun k => firstSense dict oracle sylls (i + k)))

/-- The reversed variant of the expected non-compound translation. -/
def expectedConcatRev (dict : String → Option String) (oracle : String → String)
    (sylls : List String) (i len : Nat) : String :=
  joinSpace (((List.range len).map (fun k => firstSense dict oracle sylls (i + k))).reverse)

/-- The compound test of step 3: the lowercased-and-trimmed span
translation is truthy (nonempty), differs from the forward and the
reversed sense concatenation, and splits on spaces into at most 3 words. -/
def isCompoundB (dict : String → Option String) (oracle : String → String)
    (sylls : List String) (i len : Nat) : Bool :=
  let ct := trimStr (lowerStr (mkSpan dict oracle sylls i len).translation)
  (ct != "") && (ct != expectedConcat dict oracle sylls i len) &&
    (ct != expectedConcatRev dict oracle sylls i len) &&
    decide ((splitStr ' ' ct).length ≤ 3)

/-- The per-cell span bound: the source computes MAX_SPAN as min 4 N and
the inner loops run len from 1 up to min MAX_SPAN (N - i). -/
def spanBound (N i : Nat) : Nat := min (min 4 N) (N - i)

/-- The final score of the cell at (i, len) after steps 1 to 3 and the
single-syllable floor pass: lexicon cells keep len times 10; multi
syllable oracle cells score len times 8 when the compound test fires and
len times 1 otherwise; single-syllable oracle cells get the floor 1. -/
def spanScore (dict : String → Option String) (oracle : String → String)
    (sylls : List String) (i len : Nat) : Int :=
  let s := mkSpan dict oracle sylls i len
  if s.fromDictionary then s.score
  else if 2 ≤ len then
    (if isCompoundB dict oracle sylls i len then (len : Int) * 8 else (len : Int) * 1)
  else 1

/-- The lexicon registrations performed by step 3: for every cell in loop
order (start ascending, length from 2 ascending) whose compound test
fires, the pair of the lowercased phrase and its translation is assigned
into the dictionary object. -/
def compoundRegistrations (dict : String → Option String) (oracle : String → String)
    (sylls : List String) : List (String × String) :=
  ((List.range sylls.length).map (fun i =>
    ((List.range (spanBound sylls.length i - 1)).map (fun k => k + 2)).filterMap (fun len =>
      if (mkSpan dict oracle sylls i len).fromDictionary = false ∧
          isCompoundB dict oracle sylls i len = true then
        some (lowerStr (mkSpan dict oracle sylls i len).text,
          (mkSpan dict oracle sylls i len).translation)
      else none))).flatten

/-- The dictionary object after the step 3 loop: each registration
assigns its key in order, later assignments overwriting earlier ones. -/
def updatedDict (dict : String → Option String) (oracle : String → String)
    (sylls : List String) : String → Option String :=
  (compoundRegistrations dict oracle sylls).foldl
    (fun d kv => fun k => if k = kv.1 then some kv.2 else d k) dict

-- ───────────────────────── the DP solver ─────────────────────────

/-- The two arrays of step 4: dp (none models minus infinity) and choice
(none models an unset slot of the choice array). -/
structure DPState where
  dp : Nat → Option Int
  choice : Nat → Option (Nat × Nat)

/-- Initial DP state: dp 0 is zero, everything else minus infinity, and
the choice array is unset. -/
def dpInit : DPState :=
  { dp := fun j => if j = 0 then some 0 else none, choice := fun _ => none }

/-- One body execution of the inner loop of step 4 for a given start i
and length l: reading dp i as minus infinity keeps the state (minus
infinity plus anything never strictly exceeds), otherwise newScore is
dp i plus the span score, and dp and choice at i plus l are overwritten
exactly when newScore strictly exceeds the current dp there (a current
minus infinity is always exceeded). -/
def relax (score : Nat → Nat → Int) (i l : Nat) (st : DPState) : DPState :=
  match st.dp i with
  | none => st
  | some di =>
    match st.dp (i + l) with
    | none =>
      { dp := fun j => if j = i + l then some (di + score i l) else st.dp j,
        choice := fun j => if j = i + l then some (i, l) else st.choice j }
    | some cur =>
      if cur < di + score i l then
        { dp := fun j => if j = i + l then some (di + score i l) else st.dp j,
          choice := fun j => if j = i + l then some (i, l) else st.choice j }
      else st

/-- The inner loop of step 4 run for lengths 1 up to m in increasing
order: the state after bound m plus 1 is one relax at length m plus 1
applied to the state after bound m. -/
def innerLoop (score : Nat → Nat → Int) (i : Nat) (st : DPState) : Nat → DPState
  | 0 => st
  | m + 1 => relax score i (m + 1) (innerLoop score i st m)

/-- One iteration of the outer loop of step 4: positions whose dp is
minus infinity are skipped, otherwise the inner loop runs over lengths
1 up to the span bound. -/
def processPos (score : Nat → Nat → Int) (N : Nat) (st : DPState) (i : Nat) : DPState :=
  match st.dp i with
  | none => st
  | some _ => innerLoop score i st (spanBound N i)

/-- The outer loop of step 4 run over positions 0 up to k minus 1 in
increasing order. -/
def outerLoop (score : Nat → Nat → Int) (N : Nat) : Nat → DPState
  | 0 => dpInit
  | k + 1 => processPos score N (outerLoop score N k) k

/-- The whole DP of step 4: the outer loop over all N positions. -/
def runDP (score : Nat → Nat → Int) (N : Nat) : DPState := outerLoop score N N

/-- Step 5: walk the choice array from position pos down to 0, collecting
the chosen (start, length) pairs; the source pushes then reverses, here
the list is built directly in increasing start order.  An unset choice
slot (a crash in the source) yields none; the fuel argument bounds the
number of steps. -/
def backtrack (choice : Nat → Option (Nat × Nat)) : Nat → Nat → Option (List (Nat × Nat))
  | 0, pos => if pos = 0 then some [] else none
  | fuel + 1, pos =>
    if pos = 0 then some []
    else
      match choice pos with
      | none => none
      | some (a, l) => (backtrack choice fuel a).map (fun segs => segs ++ [(a, l)])

/-- The segmentation computed by smartSegmentAndTranslate as (start,
length) pairs: empty input short-circuits to the empty list, otherwise
the DP runs and the choice array is backtracked from N. -/
def smartSegments (dict : String → Option String) (oracle : String → String)
    (text : String) : Option (List (Nat × Nat)) :=
  let sylls := normalizeSyllables text
  if sylls.length = 0 then some []
  else backtrack (runDP (spanScore dict oracle sylls) sylls.length).choice sylls.length sylls.length

/-- The per-word output record of the breakdown. -/
structure WordBreakdown where
  word : String
  translation : String
  fromDictionary : Bool
deriving DecidableEq

/-- The full smartSegmentAndTranslate output: each backtracked segment is
rendered from its span cell.  The step 3 score mutation never changes the
text, translation or fromDictionary fields, so mkSpan gives the final
field values. -/
def smartSegmentAndTranslate (dict : String → Option String) (oracle : String → String)
    (text : String) : Option (List WordBreakdown) :=
  let sylls := normalizeSyllables text
  (smartSegments dict oracle text).map (List.map (fun p =>
    { word := (mkSpan dict oracle sylls p.1 p.2).text,
      translation := (mkSpan dict oracle sylls p.1 p.2).translation,
      fromDictionary := (mkSpan dict oracle sylls p.1 p.2).fromDictionary }))

/-- A list of (start, length) pairs tiles the index interval from a to b:
consecutive starts with positive lengths and no gap or overlap. -/
def coversRange : List (Nat × Nat) → Nat → Nat → Prop
  | [], a, b => a = b
  | p :: rest, a, b => p.1 = a ∧ 1 ≤ p.2 ∧ coversRange rest (a + p.2) b

/-- A candidate span ending at j that the DP inner loops actually
evaluate: start a, positive length within the span bound at a. -/
def Cand (N j a l : Nat) : Prop := a + l = j ∧ 1 ≤ l ∧ l ≤ spanBound N a

/-- Total score of a list of (start, length) spans. -/
def sumScores (score : Nat → Nat → Int) (segs : List (Nat × Nat)) : Int :=
  (segs.map (fun p => score p.1 p.2)).sum

-- ───────────────────────── greedy segmenter ─────────────────────────

/-- The inner match loop of segmentVietnamese: try the candidate length k
first and count down to 2, returning the first length whose space-joined
slice is a lexicon hit. -/
def tryLens (dict : String → Option String) (rest : List String) : Nat → Option Nat
  | 0 => none
  | 1 => none
  | len + 2 =>
    if (dictLookup dict (joinSpace (rest.take (len + 2)))).isSome then some (len + 2)
    else tryLens dict rest (len + 1)

/-- The while loop of segmentVietnamese over the syllable index i: a
multi-syllable lexicon hit of maximal length up to min 4 (N - i) is
emitted and skipped, otherwise the single syllable at i is emitted.  The
fuel argument bounds the iteration count; every step advances i by at
least 1, so fuel N suffices. -/
def segLoop (dict : String → Option String) (sylls : List String) : Nat → Nat → List String
  | 0, _ => []
  | fuel + 1, i =>
    if i < sylls.length then
      match tryLens dict (sylls.drop i) (min 4 (sylls.length - i)) with
      | some len => joinSpace ((sylls.drop i).take len) :: segLoop dict sylls fuel (i + len)
      | none => sylls.getD i "" :: segLoop dict sylls fuel (i + 1)
    else []

/-- The greedy longest-match segmenter segmentVietnamese. -/
def segmentVietnamese (dict : String → Option String) (text : String) : List String :=
  let sylls := normalizeSyllables text
  segLoop dict sylls sylls.length 0

/-- No lexicon phrase starts at the head of p and runs past the end of p:
every candidate length above the length of p (up to the greedy bound) is
a lexicon miss on the suffix starting at p. -/
def NoLongerHit (dict : String → Option String) (p rest : List String) : Prop :=
  ∀ l, p.length < l → l ≤ min 4 (p.length + rest.length) →
    (dictLookup dict (joinSpace ((p ++ rest).take l))).isSome = false

/-- At every phrase boundary of the decomposition, no lexicon hit crosses
into the following phrases. -/
def GreedyAligned (dict : String → Option String) : List (List String) → Prop
  | [] => True
  | p :: ps => NoLongerHit dict p ps.flatten ∧ GreedyAligned dict ps

-- ───────────────────────── word-frequency merge ─────────────────────────

/-- JavaScript Map.set on an insertion-ordered association list: an
existing key keeps its slot and gets the new value, a fresh key is
appended at the end. -/
def mapSet (m : List (String × Nat)) (k : String) (v : Nat) : List (String × Nat) :=
  if m.any (fun p => p.1 == k) then m.map (fun p => if p.1 == k then (k, v) else p)
  else m ++ [(k, v)]

/-- JavaScript Map.get on the association-list model. -/
def mapGet (m : List (String × Nat)) (k : String) : Option Nat :=
  (m.find? (fun p => p.1 == k)).map (fun p => p.2)

/-- Stable insertion into a count-descending list: the new element goes
in front of the first element whose count does not exceed it, which is
exactly where the stable JavaScript sort with comparator on counts
descending keeps an element inserted to the right of equals. -/
def insertDesc (x : String × Nat) : List (String × Nat) → List (String × Nat)
  | [] => [x]
  | y :: ys => if y.2 ≤ x.2 then x :: y :: ys else y :: insertDesc x ys

/-- Stable sort by count descending, modelling the JavaScript stable
Array.prototype.sort with comparator subtracting counts. -/
def sortByCountDesc (l : List (String × Nat)) : List (String × Nat) := l.foldr insertDesc []

/-- The mergeWordFrequency operation: load existing entries into a map in
order, add each delta count onto the current value (absent defaults to
0), and rewrite the table sorted by count descending. -/
def mergeWordFrequency (existing newCounts : List (String × Nat)) : List (String × Nat) :=
  let merged := existing.foldl (fun m e => mapSet m e.1 e.2) []
  let merged2 := newCounts.foldl (fun m e => mapSet m e.1 ((mapGet m e.1).getD 0 + e.2)) merged
  sortByCountDesc merged2

/-- The count a table assigns to a word, absent words counting 0. -/
def lookupCount (l : List (String × Nat)) (w : String) : Nat := (mapGet l w).getD 0

/-- A table is sorted by count descending. -/
def SortedByCountDesc (l : List (String × Nat)) : Prop := l.Pairwise (fun a b => b.2 ≤ a.2)

-- ───────────────────────── translation clients ─────────────────────────

/-- The cache key template literal source colon target colon text. -/
def cacheKey (source target text : String) : String :=
  String.mk (source.data ++ ':' :: target.data ++ ':' :: text.data)

/-- The replace of one leading match of digits, a period and following
whitespace by nothing: applied to a numbered result line. -/
def stripNum (s : String) : String :=
  let ds := s.data.takeWhile Char.isDigit
  if ds ≠ [] ∧ (s.data.drop ds.length).head? = some '.' then
    String.mk ((s.data.drop (ds.length + 1)).dropWhile Char.isWhitespace)
  else s

/-- The response parsing of geminiTranslate: split the response text on
newlines and keep the lines whose trim is truthy. -/
def parsedLines (respText : String) : List String :=
  (splitStr '\n' respText).filter (fun l => trimStr l != "")

/-- The per-slot result of a prompt batch: line j is stripped of its
numbering and trimmed; a missing line or a falsy cleaned line falls back
to the source text of slot j. -/
def lineResult (lines batch : List String) (j : Nat) : String :=
  match lines[j]? with
  | none => batch.getD j ""
  | some l =>
    let t := trimStr (stripNum l)
    if t = "" then batch.getD j "" else t

/-- The accumulator of the cache-scan loop shared by both translate
clients: the sparse results array and the two uncached lists. -/
structure ScanState where
  results : Nat → Option String
  uncachedTexts : List String
  uncachedIndices : List Nat

/-- One iteration of the cache-scan loop: a truthy cached value fills the
results slot, otherwise the text and its index are pushed. -/
def scanStep (cache : String → Option String) (source target : String) (texts : List String)
    (st : ScanState) (i : Nat) : ScanState :=
  match truthy (cache (cacheKey source target (texts.getD i ""))) with
  | some c => { st with results := fun j => if j = i then some c else st.results j }
  | none =>
    { st with
      uncachedTexts := st.uncachedTexts ++ [texts.getD i ""],
      uncachedIndices := st.uncachedIndices ++ [i] }

/-- The cache-scan loop over indices 0 up to n minus 1. -/
def scanCacheAux (cache : String → Option String) (source target : String)
    (texts : List String) (n : Nat) : ScanState :=
  (List.range n).foldl (scanStep cache source target texts)
    { results := fun _ => none, uncachedTexts := [], uncachedIndices := [] }

/-- The full cache scan of a translate call. -/
def scanCache (cache : String → Option String) (source target : String)
    (texts : List String) : ScanState :=
  scanCacheAux cache source target texts texts.length

/-- The batch loop of geminiTranslate: chunks of 20 uncached texts; for
each slot j of a chunk the parsed response line j (or the identity
fallback) is written into the results slot of its original index and
into the cache under the key of the slot text.  The uncached index list
is consumed 20 per chunk, matching the b plus j indexing of the source;
the fuel argument bounds the chunk count and chunk count many steps
suffice. -/
def processBatches (backend : List String → String) (source target : String) :
    Nat → List String → List Nat → (Nat → Option String) → (String → Option String) →
    ((Nat → Option String) × (String → Option String))
  | 0, _, _, results, cache => (results, cache)
  | _ + 1, [], _, results, cache => (results, cache)
  | fuel + 1, u :: urest, uidx, results, cache =>
    let us := u :: urest
    let batch := us.take 20
    let lines := parsedLines (backend batch)
    let rc := (List.range batch.length).foldl
      (fun (rc : (Nat → Option String) × (String → Option String)) j =>
        (fun j1 => if j1 = uidx.getD j 0 then some (lineResult lines batch j) else rc.1 j1,
         fun k => if k = cacheKey source target (batch.getD j "") then some (lineResult lines batch j)
           else rc.2 k))
      (results, cache)
    processBatches backend source target fuel (us.drop 20) (uidx.drop 20) rc.1 rc.2

/-- The geminiTranslate client: scan the cache, return directly when
nothing is uncached, otherwise run the batch loop and read off the
results array.  The backend argument maps a chunk of texts to the raw
response text (the numbered prompt construction is injective, so the
chunk itself determines the request). -/
def geminiTranslate (backend : List String → String) (texts : List String)
    (source target : String) (cache : String → Option String) :
    List String × (String → Option String) :=
  let st := scanCache cache source target texts
  if st.uncachedTexts.isEmpty then
    ((List.range texts.length).map (fun i => (st.results i).getD ""), cache)
  else
    let rc := processBatches backend source target st.uncachedTexts.length
      st.uncachedTexts st.uncachedIndices st.results cache
    ((List.range texts.length).map (fun i => (rc.1 i).getD ""), rc.2)

/-- The batch loop of googleTranslate: chunks of 128 uncached texts; the
response of a chunk is a list of translation strings and the write loop
runs over the response length, consuming that many uncached indices (the
running uncachedIdx counter of the source). -/
def processBatchesG (backend : List String → List String) (source target : String) :
    Nat → List String → List Nat → (Nat → Option String) → (String → Option String) →
    ((Nat → Option String) × (String → Option String))
  | 0, _, _, results, cache => (results, cache)
  | _ + 1, [], _, results, cache => (results, cache)
  | fuel + 1, u :: urest, uidx, results, cache =>
    let us := u :: urest
    let batch := us.take 128
    let resp := backend batch
    let rc := (List.range resp.length).foldl
      (fun (rc : (Nat → Option String) × (String → Option String)) j =>
        (fun j1 => if j1 = uidx.getD j 0 then some (resp.getD j "") else rc.1 j1,
         fun k => if k = cacheKey source target (batch.getD j "") then some (resp.getD j "")
           else rc.2 k))
      (results, cache)
    processBatchesG backend source target fuel (us.drop 128) (uidx.drop resp.length) rc.1 rc.2

/-- The googleTranslate client on its Google-key path: cache scan, early
return on no uncached texts, otherwise the 128-chunk batch loop. -/
def googleTranslate (backend : List String → List String) (texts : List String)
    (source target : String) (cache : String → Option String) :
    List String × (String → Option String) :=
  let st := scanCache cache source target texts
  if st.uncachedTexts.isEmpty then
    ((List.range texts.length).map (fun i => (st.results i).getD ""), cache)
  else
    let rc := processBatchesG backend source target st.uncachedTexts.length
      st.uncachedTexts st.uncachedIndices st.results cache
    ((List.range texts.length).map (fun i => (rc.1 i).getD ""), rc.2)

-- ───────────────────────── request validation ─────────────────────────

/-- The input check of handleTranslate: a missing or falsy text field or
a text whose trim has length zero is rejected with a 400 response. -/
def handleTranslateRejects (text : String) : Bool :=
  (text == "") || (trimStr text == "")

-- ───────────────────────── concrete instances used by witnesses ─────────────────────────

/-- A lexicon with no entries. -/
def emptyLexicon : String → Option String := fun _ => none

/-- The identity oracle: each phrase translates to itself. -/
def echoOracle : String → String := fun s => s

/-- An oracle returning the empty string on the two-syllable phrase and
distinct words on the singles. -/
def oracleBlankAB : String → String :=
  fun s => if s = "a b" then "" else if s = "a" then "x" else if s = "b" then "y" else s

/-- An oracle giving the pair phrase a one-word translation unrelated to
the single-syllable senses. -/
def oracleZebra : String → String :=
  fun s => if s = "a b" then "zebra" else if s = "a" then "x" else if s = "b" then "y" else s

/-- An oracle whose pair translation equals the forward concatenation of
the single senses. -/
def oracleXY : String → String :=
  fun s => if s = "a b" then "x y" else if s = "a" then "x" else if s = "b" then "y" else s

/-- A lexicon holding a three-syllable phrase, its two-syllable prefix
and the remaining single syllable. -/
def lexABC : String → Option String :=
  fun s => if s = "a b c" then some "t1" else if s = "a b" then some "t2"
    else if s = "c" then some "t3" else none

/-- A lexicon holding one two-syllable phrase and one single syllable. -/
def lexGreet : String → Option String :=
  fun s => if s = "xin chao" then some "hello" else if s = "ban" then some "friend" else none

/-- A backend whose response text is empty: zero parseable lines. -/
def blankBackend : List String → String := fun _ => ""

/-- A backend always answering a single numbered line. -/
def oneLineBackend : List String → String := fun _ => "1. xa"

/-- The empty translation cache. -/
def emptyCache : String → Option String := fun _ => none

/-- A score function giving every span its length. -/
def lenScore : Nat → Nat → Int := fun _ len => (len : Int)

/-- The structural invariant of the DP arrays: dp 0 stays zero, every
position with a finite dp value other than 0 has a recorded choice, and
every recorded choice is a well-formed span ending at its slot whose
start has a finite dp value. -/
def DPInv (st : DPState) : Prop :=
  st.dp 0 = some 0 ∧
  (∀ j, st.dp j ≠ none → j = 0 ∨ st.choice j ≠ none) ∧
  (∀ j a l, st.choice j = some (a, l) → a + l = j ∧ 1 ≤ l ∧ st.dp a ≠ none)

/-- The common shape of the per-batch write loop of both translate
clients: slot j writes the value v j into the results slot of the j-th
remaining uncached index and into the cache under the key of the j-th
batch text.  processBatches instantiates v with the parsed-line result,
processBatchesG with the response entry. -/
def clientFold (source target : String) (v : Nat → String) (batch : List String)
    (uidx : List Nat) (n : Nat) (results : Nat → Option String)
    (cache : String → Option String) :
    ((Nat → Option String) × (String → Option String)) :=
  (List.range n).foldl
    (fun (rc : (Nat → Option String) × (String → Option String)) j =>
      (fun j1 => if j1 = uidx.getD j 0 then some (v j) else rc.1 j1,
       fun k => if k = cacheKey source target (batch.getD j "") then some (v j)
         else rc.2 k))
    (results, cache)

-- ═════════════════════════ theorems ═════════════════════════

-- ───────── DP solver: basic stepping lemmas ─────────

theorem innerLoop_succ (score : Nat → Nat → Int) (i : Nat) (st : DPState) (m : Nat) :
    innerLoop score i st (m + 1) = relax score i (m + 1) (innerLoop score i st m) := rfl

theorem outerLoop_succ (score : Nat → Nat → Int) (N k : Nat) :
    outerLoop score N (k + 1) = processPos score N (outerLoop score N k) k := rfl

theorem relax_cases (score : Nat → Nat → Int) (i l : Nat) (st : DPState) :
    relax score i l st = st ∨
    ∃ di, st.dp i = some di ∧
      (match st.dp (i + l) with
       | none => True
       | some cur => cur < di + score i l) ∧
      (relax score i l st).dp = (fun j => if j = i + l then some (di + score i l) else st.dp j) ∧
      (relax score i l st).choice = (fun j => if j = i + l then some (i, l) else st.choice j) := by
  unfold relax
  cases hdi : st.dp i with
  | none => exact Or.inl rfl
  | some di =>
    cases hdl : st.dp (i + l) with
    | none => exact Or.inr ⟨di, rfl, trivial, rfl, rfl⟩
    | some cur =>
      dsimp only
      by_cases hlt : cur < di + score i l
      · rw [if_pos hlt]
        exact Or.inr ⟨di, rfl, hlt, rfl, rfl⟩
      · rw [if_neg hlt]
        exact Or.inl rfl

theorem relax_dp_ne (score : Nat → Nat → Int) (i l : Nat) (st : DPState) (j : Nat)
    (h : j ≠ i + l) : (relax score i l st).dp j = st.dp j := by
  rcases relax_cases score i l st with heq | ⟨di, _, _, hdp, _⟩
  · rw [heq]
  · rw [hdp]; simp [h]

theorem relax_choice_ne (score : Nat → Nat → Int) (i l : Nat) (st : DPState) (j : Nat)
    (h : j ≠ i + l) : (relax score i l st).choice j = st.choice j := by
  rcases relax_cases score i l st with heq | ⟨di, _, _, _, hch⟩
  · rw [heq]
  · rw [hch]; simp [h]

theorem relax_dp_keep_or_some (score : Nat → Nat → Int) (i l : Nat) (st : DPState) (j : Nat) :
    (relax score i l st).dp j = st.dp j ∨ ∃ v, (relax score i l st).dp j = some v := by
  rcases relax_cases score i l st with heq | ⟨di, _, _, hdp, _⟩
  · rw [heq]; exact Or.inl rfl
  · rw [hdp]
    by_cases h : j = i + l
    · exact Or.inr ⟨di + score i l, by simp [h]⟩
    · exact Or.inl (by simp [h])

theorem relax_at_upd (score : Nat → Nat → Int) (i l : Nat) (st : DPState) (di : Int)
    (hdi : st.dp i = some di)
    (hcond : st.dp (i + l) = none ∨ ∃ cur, st.dp (i + l) = some cur ∧ cur < di + score i l) :
    (relax score i l st).dp (i + l) = some (di + score i l) ∧
    (relax score i l st).choice (i + l) = some (i, l) := by
  unfold relax
  rw [hdi]
  rcases hcond with h | ⟨cur, h, hlt⟩
  · rw [h]; exact ⟨by simp, by simp⟩
  · rw [h]; dsimp only; rw [if_pos hlt]; exact ⟨by simp, by simp⟩

theorem relax_at_keep (score : Nat → Nat → Int) (i l : Nat) (st : DPState) (di cur : Int)
    (hdi : st.dp i = some di) (hl : st.dp (i + l) = some cur)
    (hge : ¬ cur < di + score i l) : relax score i l st = st := by
  unfold relax
  rw [hdi, hl]
  dsimp only
  rw [if_neg hge]

theorem innerLoop_dp_i (score : Nat → Nat → Int) (i : Nat) (st : DPState) :
    ∀ m, (innerLoop score i st m).dp i = st.dp i := by
  intro m
  induction m with
  | zero => rfl
  | succ m ih =>
    rw [innerLoop_succ, relax_dp_ne score i (m + 1) _ i (by omega)]
    exact ih

theorem innerLoop_untouched (score : Nat → Nat → Int) (i : Nat) (st : DPState) :
    ∀ m j, (∀ l, 1 ≤ l → l ≤ m → j ≠ i + l) →
    (innerLoop score i st m).dp j = st.dp j ∧
    (innerLoop score i st m).choice j = st.choice j := by
  intro m
  induction m with
  | zero => intro j _; exact ⟨rfl, rfl⟩
  | succ m ih =>
    intro j h
    have hne : j ≠ i + (m + 1) := h (m + 1) (by omega) (le_refl _)
    have hrec := ih j (fun l h1 h2 => h l h1 (by omega))
    rw [innerLoop_succ, relax_dp_ne score i (m + 1) _ j hne,
      relax_choice_ne score i (m + 1) _ j hne]
    exact hrec

theorem innerLoop_dp_keep_or_some (score : Nat → Nat → Int) (i : Nat) (st : DPState) :
    ∀ m j, (innerLoop score i st m).dp j = st.dp j ∨ ∃ v, (innerLoop score i st m).dp j = some v := by
  intro m
  induction m with
  | zero => intro j; exact Or.inl rfl
  | succ m ih =>
    intro j
    rw [innerLoop_succ]
    rcases relax_dp_keep_or_some score i (m + 1) (innerLoop score i st m) j with h | ⟨v, hv⟩
    · rw [h]; exact ih j
    · exact Or.inr ⟨v, hv⟩

theorem innerLoop_at (score : Nat → Nat → Int) (i : Nat) (st : DPState) (di : Int)
    (hdi : st.dp i = some di) :
    ∀ m l, 1 ≤ l → l ≤ m →
    (((st.dp (i + l) = none ∨ ∃ cur, st.dp (i + l) = some cur ∧ cur < di + score i l) →
        (innerLoop score i st m).dp (i + l) = some (di + score i l) ∧
        (innerLoop score i st m).choice (i + l) = some (i, l)) ∧
     (∀ cur, st.dp (i + l) = some cur → ¬ cur < di + score i l →
        (innerLoop score i st m).dp (i + l) = st.dp (i + l) ∧
        (innerLoop score i st m).choice (i + l) = st.choice (i + l))) := by
  intro m
  induction m with
  | zero => intro l h1 h2; omega
  | succ m ih =>
    intro l h1 h2
    by_cases hlm : l = m + 1
    · subst hlm
      have huntouched := innerLoop_untouched score i st m (i + (m + 1))
        (fun l' h1' h2' => by omega)
      have hdpi : (innerLoop score i st m).dp i = st.dp i := innerLoop_dp_i score i st m
      constructor
      · intro hcond
        rw [innerLoop_succ]
        have hsame : (innerLoop score i st m).dp (i + (m + 1)) = st.dp (i + (m + 1)) :=
          huntouched.1
        refine relax_at_upd score i (m + 1) (innerLoop score i st m) di
          (by rw [hdpi]; exact hdi) ?_
        rcases hcond with h | ⟨cur, hc, hlt⟩
        · exact Or.inl (by rw [hsame, h])
        · exact Or.inr ⟨cur, by rw [hsame, hc], hlt⟩
      · intro cur hc hge
        rw [innerLoop_succ,
          relax_at_keep score i (m + 1) (innerLoop score i st m) di cur
            (by rw [hdpi]; exact hdi) (by rw [huntouched.1]; exact hc) hge]
        exact huntouched
    · have hlme : l ≤ m := by omega
      have hne : i + l ≠ i + (m + 1) := by omega
      have hrec := ih l h1 hlme
      constructor
      · intro hcond
        rw [innerLoop_succ, relax_dp_ne score i (m + 1) _ (i + l) hne,
          relax_choice_ne score i (m + 1) _ (i + l) hne]
        exact hrec.1 hcond
      · intro cur hc hge
        rw [innerLoop_succ, relax_dp_ne score i (m + 1) _ (i + l) hne,
          relax_choice_ne score i (m + 1) _ (i + l) hne]
        exact hrec.2 cur hc hge

theorem processPos_guard_none (score : Nat → Nat → Int) (N : Nat) (st : DPState) (i : Nat)
    (h : st.dp i = none) : processPos score N st i = st := by
  unfold processPos; rw [h]

theorem processPos_eq_inner (score : Nat → Nat → Int) (N : Nat) (st : DPState) (i : Nat)
    (di : Int) (h : st.dp i = some di) :
    processPos score N st i = innerLoop score i st (spanBound N i) := by
  unfold processPos; rw [h]

theorem processPos_le (score : Nat → Nat → Int) (N : Nat) (st : DPState) (i j : Nat)
    (hij : j ≤ i) :
    (processPos score N st i).dp j = st.dp j ∧ (processPos score N st i).choice j = st.choice j := by
  cases hdi : st.dp i with
  | none => rw [processPos_guard_none score N st i hdi]; exact ⟨rfl, rfl⟩
  | some di =>
    rw [processPos_eq_inner score N st i di hdi]
    exact innerLoop_untouched score i st (spanBound N i) j (fun l h1 h2 => by omega)

theorem outerLoop_freeze_add (score : Nat → Nat → Int) (N k : Nat) :
    ∀ d j, j ≤ k →
    (outerLoop score N (k + d)).dp j = (outerLoop score N k).dp j ∧
    (outerLoop score N (k + d)).choice j = (outerLoop score N k).choice j := by
  intro d
  induction d with
  | zero => intro j _; exact ⟨rfl, rfl⟩
  | succ d ih =>
    intro j h
    have h1 := processPos_le score N (outerLoop score N (k + d)) (k + d) j (by omega)
    have h2 := ih j h
    have heq : k + (d + 1) = (k + d) + 1 := rfl
    rw [heq, outerLoop_succ]
    exact ⟨h1.1.trans h2.1, h1.2.trans h2.2⟩

theorem outerLoop_freeze (score : Nat → Nat → Int) (N k k' : Nat) (hk : k ≤ k') :
    ∀ j, j ≤ k →
    (outerLoop score N k').dp j = (outerLoop score N k).dp j ∧
    (outerLoop score N k').choice j = (outerLoop score N k).choice j := by
  intro j hj
  have : k' = k + (k' - k) := by omega
  rw [this]
  exact outerLoop_freeze_add score N k (k' - k) j hj

theorem relax_inv (score : Nat → Nat → Int) (i l : Nat) (st : DPState) (hl : 1 ≤ l)
    (h : DPInv st) : DPInv (relax score i l st) := by
  obtain ⟨h0, hc, hch⟩ := h
  rcases relax_cases score i l st with heq | ⟨di, hdi, _, hdp, hchoice⟩
  · rw [heq]; exact ⟨h0, hc, hch⟩
  · refine ⟨?_, ?_, ?_⟩
    · rw [hdp]
      have : (0 : Nat) ≠ i + l := by omega
      simp only [this, if_false]
      exact h0
    · intro j hj
      by_cases hjl : j = i + l
      · right; rw [hchoice]; simp [hjl]
      · rw [hdp] at hj
        simp only [hjl, if_false] at hj
        rcases hc j hj with h' | h'
        · exact Or.inl h'
        · right; rw [hchoice]; simp only [hjl, if_false]; exact h'
    · intro j a l' hj
      rw [hchoice] at hj
      by_cases hjl : j = i + l
      · simp only [hjl, if_pos rfl] at hj
        injection hj with hpair
        injection hpair with h1 h2
        refine ⟨by omega, by omega, ?_⟩
        rw [hdp]
        have hne : a ≠ i + l := by omega
        simp only [hne, if_false]
        rw [← h1, hdi]
        exact Option.some_ne_none di
      · simp only [hjl, if_false] at hj
        obtain ⟨he, hl1, hda⟩ := hch j a l' hj
        refine ⟨he, hl1, ?_⟩
        rw [hdp]
        by_cases hal : a = i + l
        · simp [hal]
        · simp only [hal, if_false]; exact hda

theorem innerLoop_inv (score : Nat → Nat → Int) (i : Nat) (st : DPState)
    (h : DPInv st) : ∀ m, DPInv (innerLoop score i st m) := by
  intro m
  induction m with
  | zero => exact h
  | succ m ih =>
    rw [innerLoop_succ]
    exact relax_inv score i (m + 1) _ (by omega) ih

theorem dpInit_inv : DPInv dpInit := by
  refine ⟨rfl, ?_, ?_⟩
  · intro j hj
    by_cases h : j = 0
    · exact Or.inl h
    · exfalso; apply hj; simp [dpInit, h]
  · intro j a l hj
    simp [dpInit] at hj

theorem outerLoop_inv (score : Nat → Nat → Int) (N : Nat) : ∀ k, DPInv (outerLoop score N k) := by
  intro k
  induction k with
  | zero => exact dpInit_inv
  | succ k ih =>
    rw [outerLoop_succ]
    cases hdi : (outerLoop score N k).dp k with
    | none => rw [processPos_guard_none score N _ k hdi]; exact ih
    | some di =>
      rw [processPos_eq_inner score N _ k di hdi]
      exact innerLoop_inv score k _ ih (spanBound N k)

theorem innerLoop_reach (score : Nat → Nat → Int) (i : Nat) (st : DPState) (di : Int)
    (hdi : st.dp i = some di) :
    ∀ m, 1 ≤ m → (innerLoop score i st m).dp (i + 1) ≠ none := by
  intro m
  induction m with
  | zero => omega
  | succ m ih =>
    intro _
    by_cases hm : m = 0
    · subst hm
      rw [innerLoop_succ]
      have h1 : (innerLoop score i st 0).dp i = some di := hdi
      cases hdl : (innerLoop score i st 0).dp (i + 1) with
      | none =>
        have := relax_at_upd score i 1 (innerLoop score i st 0) di h1 (Or.inl hdl)
        rw [this.1]; exact Option.some_ne_none _
      | some cur =>
        by_cases hlt : cur < di + score i 1
        · have := relax_at_upd score i 1 (innerLoop score i st 0) di h1 (Or.inr ⟨cur, hdl, hlt⟩)
          rw [this.1]; exact Option.some_ne_none _
        · rw [relax_at_keep score i 1 (innerLoop score i st 0) di cur h1 hdl hlt, hdl]
          exact Option.some_ne_none _
    · have hm1 : 1 ≤ m := by omega
      have hprev := ih hm1
      rw [innerLoop_succ]
      rcases relax_dp_keep_or_some score i (m + 1) (innerLoop score i st m) (i + 1) with h | ⟨v, hv⟩
      · rw [h]; exact hprev
      · rw [hv]; exact Option.some_ne_none v

theorem outerLoop_dp_zero (score : Nat → Nat → Int) (N : Nat) :
    ∀ k, (outerLoop score N k).dp 0 = some 0 := by
  intro k
  exact (outerLoop_inv score N k).1

theorem outerLoop_reach (score : Nat → Nat → Int) (N : Nat) (hN : 1 ≤ N) :
    ∀ k, k ≤ N → ∀ j, j ≤ k → (outerLoop score N k).dp j ≠ none := by
  intro k
  induction k with
  | zero =>
    intro _ j hj
    have : j = 0 := by omega
    subst this
    rw [outerLoop_dp_zero]
    exact Option.some_ne_none 0
  | succ k ih =>
    intro hkN j hj
    by_cases hjk : j ≤ k
    · have h1 := processPos_le score N (outerLoop score N k) k j hjk
      rw [outerLoop_succ, h1.1]
      exact ih (by omega) j hjk
    · have hj1 : j = k + 1 := by omega
      subst hj1
      have hdk : (outerLoop score N k).dp k ≠ none := ih (by omega) k (le_refl k)
      cases hdi : (outerLoop score N k).dp k with
      | none => exact absurd hdi hdk
      | some dk =>
        rw [outerLoop_succ, processPos_eq_inner score N _ k dk hdi]
        have hb : 1 ≤ spanBound N k := by
          have h4 : 1 ≤ min 4 N := by
            rcases Nat.le_min.2 ⟨(by omega : 1 ≤ 4), hN⟩ with h; exact h
          have hNk : 1 ≤ N - k := by omega
          exact Nat.le_min.2 ⟨h4, hNk⟩
        exact innerLoop_reach score k _ dk hdi (spanBound N k) hb

-- ───────── backtracking produces an exact cover ─────────

theorem coversRange_append : ∀ (xs ys : List (Nat × Nat)) (a b c : Nat),
    coversRange xs a b → coversRange ys b c → coversRange (xs ++ ys) a c := by
  intro xs
  induction xs with
  | nil =>
    intro ys a b c h1 h2
    have : a = b := h1
    rw [List.nil_append, this]
    exact h2
  | cons p rest ih =>
    intro ys a b c h1 h2
    obtain ⟨hp, hl, hrest⟩ := h1
    exact ⟨hp, hl, ih ys (a + p.2) b c hrest h2⟩

theorem coversRange_le : ∀ (segs : List (Nat × Nat)) (a b : Nat), coversRange segs a b → a ≤ b := by
  intro segs
  induction segs with
  | nil => intro a b h; exact le_of_eq h
  | cons p rest ih =>
    intro a b h
    obtain ⟨_, hl, hrest⟩ := h
    have := ih (a + p.2) b hrest
    omega

theorem coversRange_sum : ∀ (segs : List (Nat × Nat)) (a b : Nat),
    coversRange segs a b → (segs.map (fun p => p.2)).sum + a = b := by
  intro segs
  induction segs with
  | nil => intro a b h; simpa using h
  | cons p rest ih =>
    intro a b h
    obtain ⟨_, _, hrest⟩ := h
    have := ih (a + p.2) b hrest
    simp [List.sum_cons]
    omega

theorem backtrack_some (st : DPState) (hinv : DPInv st) :
    ∀ fuel pos, pos ≤ fuel → (pos = 0 ∨ st.dp pos ≠ none) →
    ∃ segs, backtrack st.choice fuel pos = some segs ∧ coversRange segs 0 pos := by
  intro fuel
  induction fuel with
  | zero =>
    intro pos hpos _
    have : pos = 0 := by omega
    subst this
    exact ⟨[], rfl, rfl⟩
  | succ fuel ih =>
    intro pos hpos hdp
    by_cases hp0 : pos = 0
    · subst hp0
      exact ⟨[], by simp [backtrack], rfl⟩
    · rcases hdp with h | h
      · exact absurd h hp0
      · rcases hinv.2.1 pos h with h' | h'
        · exact absurd h' hp0
        · cases hch : st.choice pos with
          | none => exact absurd hch h'
          | some pr =>
            obtain ⟨a, l⟩ := pr
            obtain ⟨hal, hl, hda⟩ := hinv.2.2 pos a l hch
            have ha_lt : a < pos := by omega
            obtain ⟨segs, hbt, hcov⟩ := ih a (by omega) (Or.inr hda)
            refine ⟨segs ++ [(a, l)], ?_, ?_⟩
            · show backtrack st.choice (fuel + 1) pos = some (segs ++ [(a, l)])
              unfold backtrack
              rw [if_neg hp0, hch]
              dsimp only
              rw [hbt]
              rfl
            · refine coversRange_append segs [(a, l)] 0 a pos hcov ?_
              exact ⟨rfl, hl, by simp [coversRange]; omega⟩

theorem coversRange_concat {α : Type} (sylls : List α) :
    ∀ (segs : List (Nat × Nat)) (a b : Nat), coversRange segs a b → b ≤ sylls.length →
    (segs.map (fun p => (sylls.drop p.1).take p.2)).flatten = (sylls.drop a).take (b - a) := by
  intro segs
  induction segs with
  | nil =>
    intro a b h _
    have hab : a = b := h
    subst hab
    simp
  | cons p rest ih =>
    intro a b h hb
    obtain ⟨hp, hl, hrest⟩ := h
    have hab : a + p.2 ≤ b := coversRange_le rest (a + p.2) b hrest
    have hrec := ih (a + p.2) b hrest hb
    simp only [List.map_cons, List.flatten_cons, hrec, hp]
    have e1 : b - (a + p.2) = b - a - p.2 := by omega
    have e2 : p.2 + (b - a - p.2) = b - a := by omega
    rw [e1, ← List.drop_drop]
    calc List.take p.2 (List.drop a sylls) ++
          List.take (b - a - p.2) (List.drop p.2 (List.drop a sylls))
        = List.take (p.2 + (b - a - p.2)) (List.drop a sylls) := (List.take_add ..).symm
      _ = List.take (b - a) (List.drop a sylls) := by rw [e2]

/-- C1: for every input text whose normalization yields at least one
syllable, smartSegmentAndTranslate succeeds and its segmentation is a
list of spans whose start and length pairs exactly partition the
syllable index range: no gaps, no overlaps, lengths summing to N, and
concatenating the syllable slices of the spans in order reproduces the
normalized syllable sequence exactly; the word list output renders
exactly these spans. -/
theorem c1_exact_cover (dict : String → Option String) (oracle : String → String)
    (text : String) (h : 1 ≤ (normalizeSyllables text).length) :
    ∃ segs, smartSegments dict oracle text = some segs ∧
      coversRange segs 0 (normalizeSyllables text).length ∧
      (segs.map (fun p => p.2)).sum = (normalizeSyllables text).length ∧
      (segs.map (fun p => ((normalizeSyllables text).drop p.1).take p.2)).flatten =
        normalizeSyllables text ∧
      smartSegmentAndTranslate dict oracle text = some (segs.map (fun p =>
        { word := (mkSpan dict oracle (normalizeSyllables text) p.1 p.2).text,
          translation := (mkSpan dict oracle (normalizeSyllables text) p.1 p.2).translation,
          fromDictionary := (mkSpan dict oracle (normalizeSyllables text) p.1 p.2).fromDictionary })) := by
  have hN0 : ¬ (normalizeSyllables text).length = 0 := by omega
  have hinv : DPInv (runDP (spanScore dict oracle (normalizeSyllables text))
      (normalizeSyllables text).length) :=
    outerLoop_inv _ _ _
  have hreach : (runDP (spanScore dict oracle (normalizeSyllables text))
      (normalizeSyllables text).length).dp (normalizeSyllables text).length ≠ none :=
    outerLoop_reach _ _ (by omega) _ (le_refl _) _ (le_refl _)
  obtain ⟨segs, hbt, hcov⟩ :=
    backtrack_some _ hinv (normalizeSyllables text).length (normalizeSyllables text).length
      (le_refl _) (Or.inr hreach)
  have hsm : smartSegments dict oracle text = some segs := by
    unfold smartSegments
    dsimp only
    rw [if_neg hN0]
    exact hbt
  refine ⟨segs, hsm, hcov, ?_, ?_, ?_⟩
  · have := coversRange_sum segs 0 (normalizeSyllables text).length hcov
    omega
  · have := coversRange_concat (normalizeSyllables text) segs 0
      (normalizeSyllables text).length hcov (le_refl _)
    simpa using this
  · unfold smartSegmentAndTranslate
    rw [hsm]
    rfl

theorem c1_exact_cover_witness :
    ∃ segs, smartSegments emptyLexicon echoOracle "xin chao" = some segs ∧
      coversRange segs 0 (normalizeSyllables "xin chao").length ∧
      (segs.map (fun p => p.2)).sum = (normalizeSyllables "xin chao").length ∧
      (segs.map (fun p => ((normalizeSyllables "xin chao").drop p.1).take p.2)).flatten =
        normalizeSyllables "xin chao" ∧
      smartSegmentAndTranslate emptyLexicon echoOracle "xin chao" = some (segs.map (fun p =>
        { word := (mkSpan emptyLexicon echoOracle (normalizeSyllables "xin chao") p.1 p.2).text,
          translation :=
            (mkSpan emptyLexicon echoOracle (normalizeSyllables "xin chao") p.1 p.2).translation,
          fromDictionary :=
            (mkSpan emptyLexicon echoOracle (normalizeSyllables "xin chao") p.1 p.2).fromDictionary })) :=
  c1_exact_cover emptyLexicon echoOracle "xin chao" (by decide)

-- ───────── empty input handling ─────────

theorem trimStr_empty_normalize (text : String) (h : trimStr text = "") :
    normalizeSyllables text = [] := by
  have h' : trimChars text.data = [] := by
    have := congrArg String.data h
    simpa [trimStr] using this
  unfold normalizeSyllables
  rw [h']
  rfl

/-- C8 (counterexample): the input consisting of a single period has zero
syllables after normalization, yet the translate handler does not reject
it (its trim is nonempty), and the smart segmentation silently returns
the empty word list, so the zero-syllable input is handled as a silent
no-op rather than rejected. -/
theorem c8_empty_input_counterexample :
    handleTranslateRejects "." = false ∧
    normalizeSyllables "." = [] ∧
    smartSegmentAndTranslate emptyLexicon echoOracle "." = some [] :=
  ⟨by decide, by decide, by decide⟩

/-- C8 (amended): the translate operation rejects exactly those inputs
whose raw text trims to the empty string; every such rejected input
indeed normalizes to zero syllables, but an input with non-whitespace
characters that still normalizes to zero syllables (punctuation-only
text) is not rejected and instead produces the empty word list. -/
theorem c8_amended (dict : String → Option String) (oracle : String → String) (text : String) :
    (handleTranslateRejects text = true ↔ trimStr text = "") ∧
    (trimStr text = "" → normalizeSyllables text = []) ∧
    (normalizeSyllables text = [] → smartSegmentAndTranslate dict oracle text = some []) := by
  refine ⟨?_, trimStr_empty_normalize text, ?_⟩
  · constructor
    · intro h
      simp only [handleTranslateRejects, Bool.or_eq_true, beq_iff_eq] at h
      rcases h with h | h
      · rw [h]; rfl
      · exact h
    · intro h
      simp [handleTranslateRejects, h]
  · intro h
    unfold smartSegmentAndTranslate smartSegments
    dsimp only
    rw [h]
    rfl

theorem c8_amended_witness :
    normalizeSyllables " " = [] ∧
    smartSegmentAndTranslate emptyLexicon echoOracle "." = some [] :=
  ⟨(c8_amended emptyLexicon echoOracle " ").2.1 (by decide),
   (c8_amended emptyLexicon echoOracle ".").2.2 (by decide)⟩

-- ───────── DP solver: the retained choice is optimal and first-found ─────────

theorem outerLoop_choice_zero (score : Nat → Nat → Int) (N : Nat) :
    ∀ k, (outerLoop score N k).choice 0 = none := by
  intro k
  induction k with
  | zero => rfl
  | succ k ih =>
    rw [outerLoop_succ, (processPos_le score N _ k 0 (by omega)).2]
    exact ih

theorem dp_evolution (score : Nat → Nat → Int) (N j : Nat) (hj1 : 1 ≤ j) (hjN : j ≤ N) :
    ∀ k, k ≤ j →
    (((outerLoop score N k).choice j = none → (outerLoop score N k).dp j = none) ∧
     ((outerLoop score N k).dp j = none → ∀ a l, Cand N j a l → a < k →
        (runDP score N).dp a = none) ∧
     (∀ a l, (outerLoop score N k).choice j = some (a, l) →
        Cand N j a l ∧ a < k ∧
        ∃ da, (runDP score N).dp a = some da ∧
          (outerLoop score N k).dp j = some (da + score a l) ∧
          (∀ b l' db, Cand N j b l' → b < a → (runDP score N).dp b = some db →
            db + score b l' < da + score a l) ∧
          (∀ b l' db, Cand N j b l' → a ≤ b → b < k → (runDP score N).dp b = some db →
            db + score b l' ≤ da + score a l))) := by
  intro k
  induction k with
  | zero =>
    intro _
    refine ⟨?_, ?_, ?_⟩
    · intro _
      show dpInit.dp j = none
      simp [dpInit]
      omega
    · intro _ a l _ ha
      omega
    · intro a l h
      exact absurd h (by simp [outerLoop, dpInit])
  | succ k ih =>
    intro hk1
    have hkj : k < j := by omega
    have ihk := ih (by omega)
    have hFk : (runDP score N).dp k = (outerLoop score N k).dp k :=
      (outerLoop_freeze score N k N (by omega) k (le_refl k)).1
    rw [outerLoop_succ]
    cases hdk : (outerLoop score N k).dp k with
    | none =>
      rw [processPos_guard_none score N _ k hdk]
      refine ⟨ihk.1, ?_, ?_⟩
      · intro hdpj a l hc hak
        by_cases hak' : a < k
        · exact ihk.2.1 hdpj a l hc hak'
        · have : a = k := by omega
          subst this
          rw [hFk]; exact hdk
      · intro a l hch
        obtain ⟨hc, hak, da, hFda, hdpj, hstrict, hle⟩ := ihk.2.2 a l hch
        refine ⟨hc, by omega, da, hFda, hdpj, hstrict, ?_⟩
        intro b l' db hcb hab hbk hFdb
        by_cases hbk' : b < k
        · exact hle b l' db hcb hab hbk' hFdb
        · have : b = k := by omega
          subst this
          rw [hFk, hdk] at hFdb
          exact absurd hFdb (by simp)
    | some dk =>
      rw [processPos_eq_inner score N _ k dk hdk]
      by_cases hvb : j - k ≤ spanBound N k
      · -- position k contributes the candidate (k, j - k)
        have hl0 : k + (j - k) = j := by omega
        have hck : Cand N j k (j - k) := ⟨by omega, by omega, hvb⟩
        have hat := innerLoop_at score k (outerLoop score N k) dk hdk
          (spanBound N k) (j - k) (by omega) hvb
        rw [hl0] at hat
        cases hcs : (outerLoop score N k).choice j with
        | none =>
          have hdpn : (outerLoop score N k).dp j = none := ihk.1 hcs
          have hupd := hat.1 (Or.inl hdpn)
          refine ⟨?_, ?_, ?_⟩
          · intro h
            rw [hupd.2] at h
            exact absurd h (by simp)
          · intro h
            rw [hupd.1] at h
            exact absurd h (by simp)
          · intro a l hch
            rw [hupd.2] at hch
            injection hch with hpair
            injection hpair with h1 h2
            subst h1
            subst h2
            refine ⟨hck, by omega, dk, by rw [hFk]; exact hdk, hupd.1, ?_, ?_⟩
            · intro b l' db hcb hba hFdb
              have := ihk.2.1 hdpn b l' hcb (by omega)
              rw [this] at hFdb
              exact absurd hFdb (by simp)
            · intro b l' db hcb hab hbk hFdb
              have hbk' : b = k := by omega
              subst hbk'
              obtain ⟨e1, e2, e3⟩ := hcb
              have hl' : l' = j - b := by omega
              subst hl'
              rw [hFk, hdk] at hFdb
              injection hFdb with hdb
              subst hdb
              exact le_refl _
        | some pr =>
          obtain ⟨a0, l0⟩ := pr
          obtain ⟨hc0, ha0k, da, hFda, hdpj, hstrict, hle⟩ := ihk.2.2 a0 l0 hcs
          by_cases hbetter : da + score a0 l0 < dk + score k (j - k)
          · have hupd := hat.1 (Or.inr ⟨da + score a0 l0, hdpj, hbetter⟩)
            refine ⟨?_, ?_, ?_⟩
            · intro h
              rw [hupd.2] at h
              exact absurd h (by simp)
            · intro h
              rw [hupd.1] at h
              exact absurd h (by simp)
            · intro a l hch
              rw [hupd.2] at hch
              injection hch with hpair
              injection hpair with h1 h2
              subst h1
              subst h2
              refine ⟨hck, by omega, dk, by rw [hFk]; exact hdk, hupd.1, ?_, ?_⟩
              · intro b l' db hcb hba hFdb
                rcases lt_trichotomy b a0 with hlt | heq | hgt
                · have := hstrict b l' db hcb hlt hFdb
                  omega
                · subst heq
                  have hl' : l' = l0 := by
                    obtain ⟨e1, _, _⟩ := hcb
                    obtain ⟨e2, _, _⟩ := hc0
                    omega
                  subst hl'
                  rw [hFda] at hFdb
                  injection hFdb with hdb
                  subst hdb
                  omega
                · have := hle b l' db hcb (by omega) (by omega) hFdb
                  omega
              · intro b l' db hcb hab hbk hFdb
                have hbk' : b = k := by omega
                subst hbk'
                obtain ⟨e1, e2, e3⟩ := hcb
                have hl' : l' = j - b := by omega
                subst hl'
                rw [hFk, hdk] at hFdb
                injection hFdb with hdb
                subst hdb
                exact le_refl _
          · have hkeep := hat.2 (da + score a0 l0) hdpj hbetter
            refine ⟨?_, ?_, ?_⟩
            · intro h
              rw [hkeep.2, hcs] at h
              exact absurd h (by simp)
            · intro h
              rw [hkeep.1, hdpj] at h
              exact absurd h (by simp)
            · intro a l hch
              rw [hkeep.2, hcs] at hch
              injection hch with hpair
              injection hpair with h1 h2
              subst h1
              subst h2
              refine ⟨hc0, by omega, da, hFda, by rw [hkeep.1]; exact hdpj, hstrict, ?_⟩
              intro b l' db hcb hab hbk hFdb
              by_cases hbk' : b < k
              · exact hle b l' db hcb hab hbk' hFdb
              · have : b = k := by omega
                subst this
                obtain ⟨e1, e2, e3⟩ := hcb
                have hl' : l' = j - b := by omega
                subst hl'
                rw [hFk, hdk] at hFdb
                injection hFdb with hdb
                subst hdb
                exact le_of_not_lt hbetter
      · -- position k contributes no candidate ending at j
        have huntouched := innerLoop_untouched score k (outerLoop score N k) (spanBound N k) j
          (fun l h1 h2 => by omega)
        refine ⟨?_, ?_, ?_⟩
        · intro h
          rw [huntouched.2] at h
          rw [huntouched.1]
          exact ihk.1 h
        · intro h a l hc hak
          rw [huntouched.1] at h
          by_cases hak' : a < k
          · exact ihk.2.1 h a l hc hak'
          · have : a = k := by omega
            subst this
            obtain ⟨e1, e2, e3⟩ := hc
            omega
        · intro a l hch
          rw [huntouched.2] at hch
          obtain ⟨hc, hak, da, hFda, hdpj, hstrict, hle⟩ := ihk.2.2 a l hch
          refine ⟨hc, by omega, da, hFda, by rw [huntouched.1]; exact hdpj, hstrict, ?_⟩
          intro b l' db hcb hab hbk hFdb
          by_cases hbk' : b < k
          · exact hle b l' db hcb hab hbk' hFdb
          · have : b = k := by omega
            subst this
            obtain ⟨e1, e2, e3⟩ := hcb
            omega

theorem dp_retained_optimal (score : Nat → Nat → Int) (N j a l : Nat) (hjN : j ≤ N)
    (h : (runDP score N).choice j = some (a, l)) :
    Cand N j a l ∧
    ∃ da, (runDP score N).dp a = some da ∧
      (runDP score N).dp j = some (da + score a l) ∧
      (∀ b l' db, Cand N j b l' → b < a → (runDP score N).dp b = some db →
        db + score b l' < da + score a l) ∧
      (∀ b l' db, Cand N j b l' → (runDP score N).dp b = some db →
        db + score b l' ≤ da + score a l) := by
  have h' : (outerLoop score N N).choice j = some (a, l) := h
  have hj1 : 1 ≤ j := by
    rcases Nat.eq_zero_or_pos j with h0 | h0
    · subst h0
      rw [outerLoop_choice_zero score N N] at h'
      exact absurd h' (by simp)
    · exact h0
  have hfreezeC : (outerLoop score N N).choice j = (outerLoop score N j).choice j :=
    (outerLoop_freeze score N j N hjN j (le_refl j)).2
  have hfreezeD : (outerLoop score N N).dp j = (outerLoop score N j).dp j :=
    (outerLoop_freeze score N j N hjN j (le_refl j)).1
  have hch : (outerLoop score N j).choice j = some (a, l) := by
    rw [← hfreezeC]; exact h'
  obtain ⟨hc, hak, da, hFda, hdpj, hstrict, hle⟩ :=
    (dp_evolution score N j hj1 hjN j (le_refl j)).2.2 a l hch
  refine ⟨hc, da, hFda, ?_, hstrict, ?_⟩
  · show (outerLoop score N N).dp j = _
    rw [hfreezeD]
    exact hdpj
  · intro b l' db hcb hFdb
    rcases lt_or_ge b a with hba | hba
    · exact le_of_lt (hstrict b l' db hcb hba hFdb)
    · obtain ⟨e1, e2, e3⟩ := hcb
      exact hle b l' db ⟨e1, e2, e3⟩ hba (by omega) hFdb

/-- C3: the DP updates best and choice only on strict improvement, with
start positions processed in increasing order and span lengths in
increasing order; consequently, when two evaluated candidate spans ending
at the same position j achieve equal total score, the retained choice at
j is the candidate with the smaller starting index, and its total equals
the final best value at j. -/
theorem c3_tie_break (score : Nat → Nat → Int) (N j a l b l' : Nat) (da db : Int)
    (hjN : j ≤ N)
    (hch : (runDP score N).choice j = some (a, l))
    (hcand : Cand N j b l')
    (hda : (runDP score N).dp a = some da)
    (hdb : (runDP score N).dp b = some db)
    (htie : db + score b l' = da + score a l) :
    a ≤ b ∧ (runDP score N).dp j = some (da + score a l) := by
  obtain ⟨hc, da', hda', hdpj, hstrict, hle⟩ := dp_retained_optimal score N j a l hjN hch
  have heq : some da' = some da := hda'.symm.trans hda
  injection heq with heq2
  subst heq2
  constructor
  · by_contra hba
    push_neg at hba
    have := hstrict b l' db hcand hba hdb
    omega
  · exact hdpj

theorem c3_tie_break_witness :
    (0 : Nat) ≤ 1 ∧ (runDP lenScore 2).dp 2 = some (0 + lenScore 0 2) :=
  c3_tie_break lenScore 2 2 0 2 1 1 0 1 (by decide) (by decide)
    ⟨by omega, by omega, by decide⟩ (by decide) (by decide) (by decide)

-- ───────── lexicon precedence in the scoring ─────────

theorem spanScore_dict (dict : String → Option String) (oracle : String → String)
    (sylls : List String) (i l : Nat) (e : String)
    (hd : dictLookup dict (joinSpace ((sylls.drop i).take l)) = some e) :
    spanScore dict oracle sylls i l = (l : Int) * 10 := by
  simp [spanScore, mkSpan, hd]

theorem sumScores_le_of_covers (score : Nat → Nat → Int) :
    ∀ (segs : List (Nat × Nat)) (a b : Nat), coversRange segs a b →
    (∀ p ∈ segs, score p.1 p.2 ≤ (p.2 : Int) * 8) →
    sumScores score segs ≤ (((b - a : Nat)) : Int) * 8 := by
  intro segs
  induction segs with
  | nil =>
    intro a b h _
    have hab : a = b := h
    subst hab
    simp [sumScores]
  | cons p rest ih =>
    intro a b h hsub
    obtain ⟨hp, hl, hrest⟩ := h
    have hab : a + p.2 ≤ b := coversRange_le rest (a + p.2) b hrest
    have h1 : score p.1 p.2 ≤ (p.2 : Int) * 8 := hsub p (List.mem_cons_self p rest)
    have h2 : sumScores score rest ≤ (((b - (a + p.2) : Nat)) : Int) * 8 :=
      ih (a + p.2) b hrest (fun q hq => hsub q (List.mem_cons_of_mem p hq))
    have hsum : sumScores score (p :: rest) = score p.1 p.2 + sumScores score rest := by
      simp [sumScores]
    rw [hsum]
    omega

/-- C4: a phrase present in the lexicon occupying l consecutive syllables
with l at least 2 scores l times 10 as a single span, which strictly
exceeds the summed score of any partition of those same l syllables into
sub-spans whose per-span scores are at tier length times 8 or below;
hence the DP total through the single lexicon span beats the total
through any such split. -/
theorem c4_lexicon_precedence (dict : String → Option String) (oracle : String → String)
    (sylls : List String) (i l : Nat) (e : String) (segs : List (Nat × Nat))
    (hl : 2 ≤ l)
    (hd : dictLookup dict (joinSpace ((sylls.drop i).take l)) = some e)
    (hcov : coversRange segs i (i + l))
    (hsub : ∀ p ∈ segs, spanScore dict oracle sylls p.1 p.2 ≤ (p.2 : Int) * 8) :
    spanScore dict oracle sylls i l = (l : Int) * 10 ∧
    sumScores (spanScore dict oracle sylls) segs ≤ (l : Int) * 8 ∧
    sumScores (spanScore dict oracle sylls) segs < spanScore dict oracle sylls i l := by
  have h10 := spanScore_dict dict oracle sylls i l e hd
  have hsum := sumScores_le_of_covers (spanScore dict oracle sylls) segs i (i + l) hcov hsub
  have hcast : ((i + l - i : Nat) : Int) = (l : Int) := by
    congr 1
    omega
  rw [hcast] at hsum
  refine ⟨h10, hsum, ?_⟩
  rw [h10]
  omega

theorem c4_lexicon_precedence_witness :
    spanScore lexGreet echoOracle ["xin", "chao"] 0 2 = (2 : Int) * 10 ∧
    sumScores (spanScore lexGreet echoOracle ["xin", "chao"]) [(0, 1), (1, 1)] ≤ (2 : Int) * 8 ∧
    sumScores (spanScore lexGreet echoOracle ["xin", "chao"]) [(0, 1), (1, 1)] <
      spanScore lexGreet echoOracle ["xin", "chao"] 0 2 :=
  c4_lexicon_precedence lexGreet echoOracle ["xin", "chao"] 0 2 "hello" [(0, 1), (1, 1)]
    (by omega) (by decide) ⟨rfl, by omega, rfl, by omega, rfl⟩
    (by
      intro p hp
      simp only [List.mem_cons, List.mem_singleton] at hp
      rcases hp with h | h | h
      · subst h; decide
      · subst h; decide
      · exact absurd h (List.not_mem_nil p))

-- ───────── compound detection scoring and lexicon registration ─────────

theorem spanScore_nondict_multi (dict : String → Option String) (oracle : String → String)
    (sylls : List String) (i l : Nat) (hl : 2 ≤ l)
    (hnd : (mkSpan dict oracle sylls i l).fromDictionary = false) :
    spanScore dict oracle sylls i l =
      (if isCompoundB dict oracle sylls i l then (l : Int) * 8 else (l : Int) * 1) := by
  unfold spanScore
  dsimp only
  rw [hnd]
  simp [hl]

theorem spanScore_nondict_single (dict : String → Option String) (oracle : String → String)
    (sylls : List String) (p : Nat)
    (hnd : (mkSpan dict oracle sylls p 1).fromDictionary = false) :
    spanScore dict oracle sylls p 1 = 1 := by
  unfold spanScore
  dsimp only
  rw [hnd]
  simp

theorem isCompoundB_iff (dict : String → Option String) (oracle : String → String)
    (sylls : List String) (i l : Nat) :
    isCompoundB dict oracle sylls i l = true ↔
      (trimStr (lowerStr (mkSpan dict oracle sylls i l).translation) ≠ "" ∧
       trimStr (lowerStr (mkSpan dict oracle sylls i l).translation) ≠
         expectedConcat dict oracle sylls i l ∧
       trimStr (lowerStr (mkSpan dict oracle sylls i l).translation) ≠
         expectedConcatRev dict oracle sylls i l ∧
       (splitStr ' ' (trimStr (lowerStr (mkSpan dict oracle sylls i l).translation))).length ≤ 3) := by
  simp [isCompoundB, and_assoc]

theorem updFold_preserves (regs : List (String × String)) :
    ∀ (d : String → Option String) (k : String), d k ≠ none →
    (regs.foldl (fun d kv => fun x => if x = kv.1 then some kv.2 else d x) d) k ≠ none := by
  induction regs with
  | nil => intro d k h; exact h
  | cons kv rest ih =>
    intro d k h
    apply ih
    by_cases hk : k = kv.1
    · simp [hk]
    · simp [hk]; exact h

theorem updFold_mem (regs : List (String × String)) :
    ∀ (d : String → Option String) (k : String) (v : String), (k, v) ∈ regs →
    (regs.foldl (fun d kv => fun x => if x = kv.1 then some kv.2 else d x) d) k ≠ none := by
  induction regs with
  | nil => intro d k v h; exact absurd h (List.not_mem_nil _)
  | cons kv rest ih =>
    intro d k v h
    rcases List.mem_cons.1 h with h | h
    · rw [List.foldl_cons]
      apply updFold_preserves
      have hk : k = kv.1 := by rw [← h]
      simp [hk]
    · rw [List.foldl_cons]
      exact ih _ k v h

theorem compoundRegistrations_mem (dict : String → Option String) (oracle : String → String)
    (sylls : List String) (i l : Nat) (hl : 2 ≤ l) (hbound : l ≤ spanBound sylls.length i)
    (hnd : (mkSpan dict oracle sylls i l).fromDictionary = false)
    (hcomp : isCompoundB dict oracle sylls i l = true) :
    (lowerStr (mkSpan dict oracle sylls i l).text, (mkSpan dict oracle sylls i l).translation) ∈
      compoundRegistrations dict oracle sylls := by
  have hi : i < sylls.length := by
    have h1 : l ≤ sylls.length - i :=
      le_trans hbound (min_le_right _ _)
    omega
  unfold compoundRegistrations
  rw [List.mem_flatten]
  refine ⟨_, List.mem_map_of_mem _ (List.mem_range.2 hi), ?_⟩
  rw [List.mem_filterMap]
  refine ⟨l, ?_, ?_⟩
  · rw [List.mem_map]
    refine ⟨l - 2, List.mem_range.2 (by omega), by omega⟩
  · rw [if_pos ⟨hnd, hcomp⟩]

/-- C5 (counterexample): a two-syllable span whose oracle translation is
the empty string satisfies the claimed compound condition: its
case-normalized translation differs from both the forward and reversed
sense concatenations and has at most 3 space-separated words; yet the
code classifies it as not a compound (the truthiness conjunct fails),
gives it score 2 times 1 instead of 2 times 8, and registers nothing. -/
theorem c5_blank_translation_counterexample :
    (trimStr (lowerStr (mkSpan emptyLexicon oracleBlankAB ["a", "b"] 0 2).translation) ≠
        expectedConcat emptyLexicon oracleBlankAB ["a", "b"] 0 2 ∧
     trimStr (lowerStr (mkSpan emptyLexicon oracleBlankAB ["a", "b"] 0 2).translation) ≠
        expectedConcatRev emptyLexicon oracleBlankAB ["a", "b"] 0 2 ∧
     (splitStr ' '
        (trimStr (lowerStr (mkSpan emptyLexicon oracleBlankAB ["a", "b"] 0 2).translation))).length ≤ 3) ∧
    (mkSpan emptyLexicon oracleBlankAB ["a", "b"] 0 2).fromDictionary = false ∧
    spanScore emptyLexicon oracleBlankAB ["a", "b"] 0 2 = (2 : Int) * 1 ∧
    compoundRegistrations emptyLexicon oracleBlankAB ["a", "b"] = [] := by
  refine ⟨⟨by decide, by decide, by decide⟩, by decide, by decide, by decide⟩

/-- C5 (amended): an unresolved multi-syllable span with an oracle
translation is classified a detected compound, scoring l times 8 and
getting its lowercased phrase registered into the runtime lexicon,
exactly when its case-normalized translation is NONEMPTY, differs from
both the forward and reversed first-sense concatenations, and has at
most 3 words; otherwise it scores l times 1; and every unresolved
single-syllable span receives the floor score 1. -/
theorem c5_compound_scoring (dict : String → Option String) (oracle : String → String)
    (sylls : List String) (i l : Nat)
    (hl : 2 ≤ l) (hbound : l ≤ spanBound sylls.length i)
    (hnd : (mkSpan dict oracle sylls i l).fromDictionary = false) :
    (spanScore dict oracle sylls i l = (l : Int) * 8 ↔
      (trimStr (lowerStr (mkSpan dict oracle sylls i l).translation) ≠ "" ∧
       trimStr (lowerStr (mkSpan dict oracle sylls i l).translation) ≠
         expectedConcat dict oracle sylls i l ∧
       trimStr (lowerStr (mkSpan dict oracle sylls i l).translation) ≠
         expectedConcatRev dict oracle sylls i l ∧
       (splitStr ' ' (trimStr (lowerStr (mkSpan dict oracle sylls i l).translation))).length ≤ 3)) ∧
    (¬ isCompoundB dict oracle sylls i l = true →
      spanScore dict oracle sylls i l = (l : Int) * 1) ∧
    (isCompoundB dict oracle sylls i l = true →
      (lowerStr (mkSpan dict oracle sylls i l).text,
        (mkSpan dict oracle sylls i l).translation) ∈ compoundRegistrations dict oracle sylls ∧
      updatedDict dict oracle sylls (lowerStr (mkSpan dict oracle sylls i l).text) ≠ none) ∧
    (∀ p : Nat, (mkSpan dict oracle sylls p 1).fromDictionary = false →
      spanScore dict oracle sylls p 1 = 1) := by
  have hscore := spanScore_nondict_multi dict oracle sylls i l hl hnd
  refine ⟨?_, ?_, ?_, ?_⟩
  · rw [← isCompoundB_iff]
    constructor
    · intro h
      by_contra hcomp
      rw [hscore, if_neg hcomp] at h
      have : (l : Int) * 1 ≠ (l : Int) * 8 := by omega
      exact this h
    · intro h
      rw [hscore, if_pos h]
  · intro h
    rw [hscore, if_neg h]
  · intro hcomp
    refine ⟨compoundRegistrations_mem dict oracle sylls i l hl hbound hnd hcomp, ?_⟩
    exact updFold_mem _ dict _ _ (compoundRegistrations_mem dict oracle sylls i l hl hbound hnd hcomp)
  · intro p hp
    exact spanScore_nondict_single dict oracle sylls p hp

theorem c5_compound_scoring_witness :
    ((lowerStr (mkSpan emptyLexicon oracleZebra ["a", "b"] 0 2).text,
      (mkSpan emptyLexicon oracleZebra ["a", "b"] 0 2).translation) ∈
        compoundRegistrations emptyLexicon oracleZebra ["a", "b"] ∧
     updatedDict emptyLexicon oracleZebra ["a", "b"]
        (lowerStr (mkSpan emptyLexicon oracleZebra ["a", "b"] 0 2).text) ≠ none) ∧
    spanScore emptyLexicon oracleXY ["a", "b"] 0 2 = (2 : Int) * 1 :=
  ⟨(c5_compound_scoring emptyLexicon oracleZebra ["a", "b"] 0 2 (by omega) (by decide)
      (by decide)).2.2.1 (by decide),
   (c5_compound_scoring emptyLexicon oracleXY ["a", "b"] 0 2 (by omega) (by decide)
      (by decide)).2.1 (by decide)⟩

-- ───────── greedy segmenter on phrase decompositions ─────────

theorem tryLens_finds (dict : String → Option String) (rest : List String) (n : Nat)
    (hn2 : 2 ≤ n)
    (hhit : (dictLookup dict (joinSpace (rest.take n))).isSome = true) :
    ∀ k, n ≤ k →
    (∀ l, n < l → l ≤ k → (dictLookup dict (joinSpace (rest.take l))).isSome = false) →
    tryLens dict rest k = some n := by
  intro k
  induction k using Nat.strong_induction_on with
  | _ k ih =>
    match k with
    | 0 => intro h _; omega
    | 1 => intro h _; omega
    | m + 2 =>
      intro hnk hmiss
      by_cases he : n = m + 2
      · subst he
        unfold tryLens
        rw [hhit]
        simp
      · unfold tryLens
        rw [hmiss (m + 2) (by omega) (le_refl _)]
        simp only [Bool.false_eq_true, if_false]
        exact ih (m + 1) (by omega) (by omega) (fun l h1 h2 => hmiss l h1 (by omega))

theorem tryLens_misses (dict : String → Option String) (rest : List String) :
    ∀ k, (∀ l, 2 ≤ l → l ≤ k → (dictLookup dict (joinSpace (rest.take l))).isSome = false) →
    tryLens dict rest k = none := by
  intro k
  induction k using Nat.strong_induction_on with
  | _ k ih =>
    match k with
    | 0 => intro _; rfl
    | 1 => intro _; rfl
    | m + 2 =>
      intro hmiss
      unfold tryLens
      rw [hmiss (m + 2) (by omega) (le_refl _)]
      simp only [Bool.false_eq_true, if_false]
      exact ih (m + 1) (by omega) (fun l h1 h2 => hmiss l h1 (by omega))

theorem joinSpace_single (s : String) : joinSpace [s] = s := rfl

theorem segLoop_decomposition (dict : String → Option String) :
    ∀ (parts : List (List String)) (sylls : List String) (fuel i : Nat),
    sylls.drop i = parts.flatten →
    sylls.length - i ≤ fuel →
    (∀ p ∈ parts, p ≠ [] ∧ p.length ≤ 4 ∧ (dictLookup dict (joinSpace p)).isSome = true) →
    GreedyAligned dict parts →
    segLoop dict sylls fuel i = parts.map joinSpace := by
  intro parts
  induction parts with
  | nil =>
    intro sylls fuel i hdrop hfuel _ _
    have hi : sylls.length ≤ i := by
      have := congrArg List.length hdrop
      simp [List.length_drop] at this
      omega
    cases fuel with
    | zero => rfl
    | succ f =>
      unfold segLoop
      rw [if_neg (by omega)]
      rfl
  | cons p ps ih =>
    intro sylls fuel i hdrop hfuel hparts halign
    obtain ⟨hpne, hp4, hphit⟩ := hparts p (List.mem_cons_self p ps)
    obtain ⟨hnl, halign2⟩ := halign
    have hrest : sylls.drop i = p ++ ps.flatten := by rw [hdrop]; rfl
    have hplen1 : 1 ≤ p.length := List.length_pos.2 hpne
    have hminlen : sylls.length - i = p.length + ps.flatten.length := by
      have := congrArg List.length hrest
      rw [List.length_drop, List.length_append] at this
      omega
    have hi : i < sylls.length := by omega
    obtain ⟨f, rfl⟩ : ∃ f, fuel = f + 1 := by
      cases fuel with
      | zero => omega
      | succ f => exact ⟨f, rfl⟩
    by_cases hp1 : p.length = 1
    · obtain ⟨s, hp⟩ : ∃ s, p = [s] := by
        cases p with
        | nil => exact absurd rfl hpne
        | cons s t =>
          cases t with
          | nil => exact ⟨s, rfl⟩
          | cons _ _ => simp at hp1
      subst hp
      have hnone : tryLens dict (sylls.drop i) (min 4 (sylls.length - i)) = none := by
        apply tryLens_misses
        intro l h2 hlk
        rw [hrest]
        refine hnl l (by simpa using h2) ?_
        rw [← hminlen]
        simpa using hlk
      unfold segLoop
      rw [if_pos hi, hnone]
      dsimp only
      have hget : sylls[i]? = some s := by
        have h0 := List.getElem?_drop sylls i 0
        rw [hrest] at h0
        simpa using h0.symm
      have hgetD : sylls.getD i "" = s := by
        rw [List.getD_eq_getElem?_getD, hget]
        rfl
      rw [hgetD]
      have hrec : segLoop dict sylls f (i + 1) = ps.map joinSpace := by
        apply ih
        · have h1 : (sylls.drop i).drop 1 = sylls.drop (i + 1) := List.drop_drop ..
          rw [← h1, hrest]
          rfl
        · omega
        · intro q hq
          exact hparts q (List.mem_cons_of_mem _ hq)
        · exact halign2
      rw [hrec]
      rfl
    · have hp2 : 2 ≤ p.length := by omega
      have hfind : tryLens dict (sylls.drop i) (min 4 (sylls.length - i)) = some p.length := by
        apply tryLens_finds dict (sylls.drop i) p.length hp2
        · rw [hrest, List.take_left]
          exact hphit
        · refine Nat.le_min.2 ⟨hp4, by omega⟩
        · intro l h1 h2
          rw [hrest]
          refine hnl l h1 ?_
          rw [← hminlen]
          exact h2
      unfold segLoop
      rw [if_pos hi, hfind]
      dsimp only
      have hslice : (sylls.drop i).take p.length = p := by
        rw [hrest]
        exact List.take_left ..
      rw [hslice]
      have hrec : segLoop dict sylls f (i + p.length) = ps.map joinSpace := by
        apply ih
        · have h1 : (sylls.drop i).drop p.length = sylls.drop (i + p.length) := List.drop_drop ..
          rw [← h1, hrest]
          exact List.drop_left ..
        · omega
        · intro q hq
          exact hparts q (List.mem_cons_of_mem p hq)
        · exact halign2
      rw [hrec]
      rfl

/-- C7 (counterexample): with a lexicon holding the phrases a-b-c, a-b
and c, the text composed of the lexicon phrases a-b and c (in order) is
segmented by the greedy segmenter into the single crossing phrase a-b-c,
not into the given phrases, so the claim fails as stated. -/
theorem c7_greedy_counterexample :
    ([["a", "b"], ["c"]] : List (List String)).flatten = normalizeSyllables "a b c" ∧
    (dictLookup lexABC (joinSpace ["a", "b"])).isSome = true ∧
    (dictLookup lexABC (joinSpace ["c"])).isSome = true ∧
    segmentVietnamese lexABC "a b c" = ["a b c"] ∧
    segmentVietnamese lexABC "a b c" ≠ ([["a", "b"], ["c"]] : List (List String)).map joinSpace := by
  refine ⟨by decide, by decide, by decide, by decide, by decide⟩

/-- C7 (amended): for every input text whose normalized syllables are the
concatenation of lexicon phrases of 1 to 4 syllables, PROVIDED no lexicon
phrase starting at a decomposition boundary extends past that boundary
phrase (no crossing hit), the greedy segmenter returns exactly those
phrases, in order.  The no-crossing proviso is necessary, see the
counterexample. -/
theorem c7_greedy_exact (dict : String → Option String) (parts : List (List String))
    (text : String)
    (hdecomp : normalizeSyllables text = parts.flatten)
    (hparts : ∀ p ∈ parts, p ≠ [] ∧ p.length ≤ 4 ∧ (dictLookup dict (joinSpace p)).isSome = true)
    (halign : GreedyAligned dict parts) :
    segmentVietnamese dict text = parts.map joinSpace := by
  unfold segmentVietnamese
  dsimp only
  apply segLoop_decomposition dict parts _ _ 0
  · rw [List.drop_zero]
    exact hdecomp
  · omega
  · exact hparts
  · exact halign

theorem c7_greedy_exact_witness :
    segmentVietnamese lexGreet "xin chao ban" =
      ([["xin", "chao"], ["ban"]] : List (List String)).map joinSpace :=
  c7_greedy_exact lexGreet [["xin", "chao"], ["ban"]] "xin chao ban" (by decide)
    (by
      intro p hp
      simp only [List.mem_cons, List.mem_singleton] at hp
      rcases hp with h | h | h
      · subst h; refine ⟨by decide, by decide, by decide⟩
      · subst h; refine ⟨by decide, by decide, by decide⟩
      · exact absurd h (List.not_mem_nil p))
    ⟨fun l h1 h2 => by
        have hl3 : l = 3 := by
          simp only [List.length_cons, List.length_nil, List.flatten_cons,
            List.flatten_nil, List.append_nil, List.length_append] at h1 h2 ⊢
          omega
        subst hl3
        decide,
      fun l h1 h2 => by
        exfalso
        simp only [List.length_cons, List.length_nil, List.flatten_nil] at h1 h2
        omega,
      trivial⟩

-- ───────── association-list map and stable sort lemmas ─────────

theorem mapGet_cons (q : String × Nat) (rest : List (String × Nat)) (k : String) :
    mapGet (q :: rest) k = if q.1 == k then some q.2 else mapGet rest k := by
  by_cases hq : q.1 == k
  · rw [mapGet, List.find?_cons_of_pos rest hq, if_pos hq]
    rfl
  · rw [mapGet, List.find?_cons_of_neg rest (by simpa using hq), if_neg hq]
    rfl

theorem mapSet_cons (q : String × Nat) (rest : List (String × Nat)) (k : String) (v : Nat) :
    mapSet (q :: rest) k v =
      if q.1 == k then (k, v) :: rest.map (fun p => if p.1 == k then (k, v) else p)
      else q :: mapSet rest k v := by
  by_cases hq : q.1 == k
  · rw [mapSet, if_pos (by simp [List.any_cons, hq]), if_pos hq, List.map_cons]
    congr 1
    rw [if_pos hq]
  · rw [if_neg hq]
    by_cases hr : rest.any (fun p => p.1 == k)
    · rw [mapSet, if_pos (by simp [List.any_cons, hr]), List.map_cons, if_neg hq]
      congr 1
      rw [mapSet, if_pos hr]
    · rw [mapSet, if_neg (by simp [List.any_cons, hq, hr])]
      rw [mapSet, if_neg hr]
      rfl

theorem mapGet_set_self : ∀ (m : List (String × Nat)) (k : String) (v : Nat),
    mapGet (mapSet m k v) k = some v := by
  intro m
  induction m with
  | nil =>
    intro k v
    have h0 : mapSet [] k v = [(k, v)] := rfl
    rw [h0, mapGet_cons, if_pos (by simp)]
  | cons q rest ih =>
    intro k v
    rw [mapSet_cons]
    by_cases hq : q.1 == k
    · rw [if_pos hq, mapGet_cons, if_pos (by simp)]
    · rw [if_neg hq, mapGet_cons, if_neg hq]
      exact ih k v

theorem mapGet_map_replace : ∀ (rest : List (String × Nat)) (k : String) (v : Nat) (w : String),
    k ≠ w →
    mapGet (rest.map (fun p => if p.1 == k then (k, v) else p)) w = mapGet rest w := by
  intro rest
  induction rest with
  | nil => intro k v w _; rfl
  | cons q rest ih =>
    intro k v w hkw
    rw [List.map_cons, mapGet_cons, mapGet_cons]
    by_cases hq : q.1 == k
    · have hqk : q.1 = k := by simpa using hq
      rw [if_pos hq,
        if_neg (show ¬ (((k, v) : String × Nat).1 == w) = true by simpa using hkw),
        if_neg (show ¬ (q.1 == w) = true by simp [hqk]; exact hkw)]
      exact ih k v w hkw
    · rw [if_neg hq]
      by_cases hw : q.1 == w
      · rw [if_pos hw, if_pos hw]
      · rw [if_neg hw, if_neg hw]
        exact ih k v w hkw

theorem mapGet_set_ne : ∀ (m : List (String × Nat)) (k : String) (v : Nat) (w : String),
    k ≠ w → mapGet (mapSet m k v) w = mapGet m w := by
  intro m
  induction m with
  | nil =>
    intro k v w h
    have h0 : mapSet [] k v = [(k, v)] := rfl
    rw [h0, mapGet_cons,
      if_neg (show ¬ (((k, v) : String × Nat).1 == w) = true by simpa using h)]
  | cons q rest ih =>
    intro k v w h
    rw [mapSet_cons]
    by_cases hq : q.1 == k
    · have hqk : q.1 = k := by simpa using hq
      rw [if_pos hq, mapGet_cons, mapGet_cons,
        if_neg (show ¬ (((k, v) : String × Nat).1 == w) = true by simpa using h),
        if_neg (show ¬ (q.1 == w) = true by simp [hqk]; exact h)]
      exact mapGet_map_replace rest k v w h
    · rw [if_neg hq, mapGet_cons, mapGet_cons]
      by_cases hw : q.1 == w
      · rw [if_pos hw, if_pos hw]
      · rw [if_neg hw, if_neg hw]
        exact ih k v w h

theorem mapGet_eq_none_of_not_mem (m : List (String × Nat)) (w : String)
    (h : w ∉ m.map Prod.fst) : mapGet m w = none := by
  rw [mapGet, List.find?_eq_none.2]
  · rfl
  · intro q hq hbeq
    apply h
    rw [List.mem_map]
    exact ⟨q, hq, by simpa using hbeq⟩

theorem nodup_key_unique : ∀ (l : List (String × Nat)), (l.map Prod.fst).Nodup →
    ∀ q q', q ∈ l → q' ∈ l → q.1 = q'.1 → q = q' := by
  intro l
  induction l with
  | nil => intro _ q q' hq; exact absurd hq (List.not_mem_nil q)
  | cons p rest ih =>
    intro hnd q q' hq hq' hkey
    rw [List.map_cons, List.nodup_cons] at hnd
    rcases List.mem_cons.1 hq with h1 | h1 <;> rcases List.mem_cons.1 hq' with h2 | h2
    · rw [h1, h2]
    · exfalso
      apply hnd.1
      rw [List.mem_map]
      exact ⟨q', h2, by rw [← hkey, h1]⟩
    · exfalso
      apply hnd.1
      rw [List.mem_map]
      exact ⟨q, h1, by rw [hkey, h2]⟩
    · exact ih hnd.2 q q' h1 h2 hkey

theorem mapGet_eq_of_perm (l l' : List (String × Nat)) (hperm : l.Perm l')
    (hnd : (l.map Prod.fst).Nodup) (w : String) : mapGet l w = mapGet l' w := by
  cases h1 : l.find? (fun p => p.1 == w) with
  | none =>
    have hall := List.find?_eq_none.1 h1
    have h2 : l'.find? (fun p => p.1 == w) = none :=
      List.find?_eq_none.2 (fun q hq => hall q (hperm.mem_iff.2 hq))
    rw [mapGet, mapGet, h1, h2]
  | some q =>
    have hq_mem : q ∈ l := List.mem_of_find?_eq_some h1
    have hq_pred : q.1 = w := by
      have := List.find?_some h1
      simpa using this
    cases h2 : l'.find? (fun p => p.1 == w) with
    | none =>
      exfalso
      have hall := List.find?_eq_none.1 h2
      exact hall q (hperm.mem_iff.1 hq_mem) (by simpa using hq_pred)
    | some q' =>
      have hq'_mem : q' ∈ l := hperm.mem_iff.2 (List.mem_of_find?_eq_some h2)
      have hq'_pred : q'.1 = w := by
        have := List.find?_some h2
        simpa using this
      have heq : q = q' :=
        nodup_key_unique l hnd q q' hq_mem hq'_mem (by rw [hq_pred, hq'_pred])
      rw [mapGet, mapGet, h1, h2, heq]

theorem insertDesc_perm (x : String × Nat) : ∀ (l : List (String × Nat)),
    (insertDesc x l).Perm (x :: l) := by
  intro l
  induction l with
  | nil => exact List.Perm.refl _
  | cons y ys ih =>
    rw [insertDesc]
    by_cases h : y.2 ≤ x.2
    · rw [if_pos h]
    · rw [if_neg h]
      exact (ih.cons y).trans (List.Perm.swap x y ys)

theorem sortByCountDesc_perm : ∀ (l : List (String × Nat)), (sortByCountDesc l).Perm l := by
  intro l
  induction l with
  | nil => exact List.Perm.refl _
  | cons x xs ih =>
    have h1 : sortByCountDesc (x :: xs) = insertDesc x (sortByCountDesc xs) := rfl
    rw [h1]
    exact (insertDesc_perm x (sortByCountDesc xs)).trans (ih.cons x)

theorem insertDesc_sorted (x : String × Nat) : ∀ (l : List (String × Nat)),
    SortedByCountDesc l → SortedByCountDesc (insertDesc x l) := by
  intro l
  induction l with
  | nil => intro _; exact List.pairwise_singleton _ _
  | cons y ys ih =>
    intro h
    obtain ⟨h1, h2⟩ := List.pairwise_cons.1 h
    rw [insertDesc]
    by_cases hc : y.2 ≤ x.2
    · rw [if_pos hc]
      refine List.pairwise_cons.2 ⟨?_, List.pairwise_cons.2 ⟨h1, h2⟩⟩
      intro z hz
      rcases List.mem_cons.1 hz with hm | hm
      · rw [hm]; exact hc
      · exact le_trans (h1 z hm) hc
    · rw [if_neg hc]
      refine List.pairwise_cons.2 ⟨?_, ih h2⟩
      intro z hz
      have hz' : z ∈ x :: ys := (insertDesc_perm x ys).mem_iff.1 hz
      rcases List.mem_cons.1 hz' with hm | hm
      · rw [hm]; omega
      · exact h1 z hm

theorem sortByCountDesc_sorted : ∀ (l : List (String × Nat)),
    SortedByCountDesc (sortByCountDesc l) := by
  intro l
  induction l with
  | nil => exact List.Pairwise.nil
  | cons x xs ih => exact insertDesc_sorted x (sortByCountDesc xs) ih

theorem sortByCountDesc_of_sorted : ∀ (l : List (String × Nat)),
    SortedByCountDesc l → sortByCountDesc l = l := by
  intro l
  induction l with
  | nil => intro _; rfl
  | cons x xs ih =>
    intro h
    obtain ⟨h1, h2⟩ := List.pairwise_cons.1 h
    have he : sortByCountDesc (x :: xs) = insertDesc x (sortByCountDesc xs) := rfl
    rw [he, ih h2]
    cases xs with
    | nil => rfl
    | cons y ys =>
      rw [insertDesc, if_pos (h1 y (List.mem_cons_self y ys))]

theorem mapSet_fresh (acc : List (String × Nat)) (k : String) (v : Nat)
    (h : ∀ q ∈ acc, (q.1 == k) = false) : mapSet acc k v = acc ++ [(k, v)] := by
  rw [mapSet, if_neg]
  intro hany
  rw [List.any_eq_true] at hany
  obtain ⟨q, hq, hpred⟩ := hany
  rw [h q hq] at hpred
  exact Bool.false_ne_true hpred

theorem foldl_mapSet_eq : ∀ (l acc : List (String × Nat)),
    (∀ e ∈ l, ∀ q ∈ acc, (q.1 == e.1) = false) →
    (l.map Prod.fst).Nodup →
    l.foldl (fun m e => mapSet m e.1 e.2) acc = acc ++ l := by
  intro l
  induction l with
  | nil => intro acc _ _; simp
  | cons e rest ih =>
    intro acc hfresh hnd
    rw [List.map_cons, List.nodup_cons] at hnd
    rw [List.foldl_cons,
      mapSet_fresh acc e.1 e.2 (fun q hq => hfresh e (List.mem_cons_self e rest) q hq)]
    have he : acc ++ [(e.1, e.2)] = acc ++ [e] := rfl
    rw [he, ih (acc ++ [e]) ?_ hnd.2]
    · rw [List.append_assoc]
      rfl
    · intro e2 he2 q hq
      rcases List.mem_append.1 hq with hm | hm
      · exact hfresh e2 (List.mem_cons_of_mem e he2) q hm
      · have hqe : q = e := by simpa using hm
        subst hqe
        have hne : q.1 ≠ e2.1 := by
          intro hc
          apply hnd.1
          rw [List.mem_map]
          exact ⟨e2, he2, hc.symm⟩
        simpa using hne

theorem foldl_add_lookup : ∀ (delta : List (String × Nat)), (delta.map Prod.fst).Nodup →
    ∀ (acc : List (String × Nat)) (w : String),
    mapGet (delta.foldl (fun m e => mapSet m e.1 ((mapGet m e.1).getD 0 + e.2)) acc) w =
      if w ∈ delta.map Prod.fst then some ((mapGet acc w).getD 0 + lookupCount delta w)
      else mapGet acc w := by
  intro delta
  induction delta with
  | nil =>
    intro _ acc w
    simp
  | cons e rest ih =>
    intro hnd acc w
    rw [List.map_cons, List.nodup_cons] at hnd
    rw [List.foldl_cons, ih hnd.2]
    by_cases hw : w = e.1
    · subst hw
      rw [if_neg hnd.1, if_pos (by rw [List.map_cons]; exact List.mem_cons_self _ _)]
      rw [mapGet_set_self]
      rw [lookupCount, mapGet_cons, if_pos (by simp)]
      rfl
    · have hwne : e.1 ≠ w := fun hc => hw hc.symm
      rw [mapGet_set_ne acc e.1 ((mapGet acc e.1).getD 0 + e.2) w hwne]
      have hl : lookupCount (e :: rest) w = lookupCount rest w := by
        rw [lookupCount, lookupCount, mapGet_cons, if_neg (by simpa using hwne)]
      by_cases hmem : w ∈ rest.map Prod.fst
      · rw [if_pos hmem, if_pos (by rw [List.map_cons]; exact List.mem_cons_of_mem _ hmem), hl]
      · rw [if_neg hmem, if_neg ?_]
        rw [List.map_cons]
        intro hc
        rcases List.mem_cons.1 hc with hm | hm
        · exact hw hm
        · exact hmem hm

theorem mapSet_keys_mem : ∀ (m : List (String × Nat)) (k : String) (v : Nat) (x : String),
    x ∈ (mapSet m k v).map Prod.fst → x ∈ m.map Prod.fst ∨ x = k := by
  intro m
  induction m with
  | nil =>
    intro k v x hx
    have h0 : mapSet [] k v = [(k, v)] := rfl
    rw [h0] at hx
    simp at hx
    exact Or.inr hx
  | cons q rest ih =>
    intro k v x hx
    rw [mapSet_cons] at hx
    by_cases hq : q.1 == k
    · rw [if_pos hq, List.map_cons] at hx
      rcases List.mem_cons.1 hx with hm | hm
      · exact Or.inr hm
      · rw [List.map_map, List.mem_map] at hm
        obtain ⟨p, hp, hfp⟩ := hm
        by_cases hpk : p.1 == k
        · right
          rw [← hfp]
          have hpk' : p.1 = k := by simpa using hpk
          simp [Function.comp, hpk']
        · left
          rw [List.map_cons, List.mem_cons]
          right
          rw [List.mem_map]
          refine ⟨p, hp, ?_⟩
          rw [← hfp]
          have hpk' : p.1 ≠ k := by simpa using hpk
          simp [Function.comp, hpk']
    · rw [if_neg hq, List.map_cons] at hx
      rcases List.mem_cons.1 hx with hm | hm
      · left
        rw [List.map_cons, List.mem_cons]
        exact Or.inl hm
      · rcases ih k v x hm with hm2 | hm2
        · left
          rw [List.map_cons, List.mem_cons]
          exact Or.inr hm2
        · exact Or.inr hm2

theorem mapSet_keys_nodup : ∀ (m : List (String × Nat)) (k : String) (v : Nat),
    (m.map Prod.fst).Nodup → ((mapSet m k v).map Prod.fst).Nodup := by
  intro m
  induction m with
  | nil =>
    intro k v _
    have h0 : mapSet [] k v = [(k, v)] := rfl
    rw [h0]
    simp
  | cons q rest ih =>
    intro k v hnd
    rw [List.map_cons, List.nodup_cons] at hnd
    rw [mapSet_cons]
    by_cases hq : q.1 == k
    · have hqk : q.1 = k := by simpa using hq
      rw [if_pos hq]
      have hee : rest.map (fun p => if p.1 == k then (k, v) else p) = rest := by
        have hcongr : rest.map (fun p => if p.1 == k then (k, v) else p) = rest.map id := by
          apply List.map_congr_left
          intro a ha
          have hak : (a.1 == k) = false := by
            rw [beq_eq_false_iff_ne]
            intro hc
            apply hnd.1
            rw [List.mem_map]
            exact ⟨a, ha, by rw [hc, hqk]⟩
          rw [if_neg (by simp [hak])]
          rfl
        rw [hcongr, List.map_id]
      rw [hee, List.map_cons, List.nodup_cons]
      refine ⟨?_, hnd.2⟩
      intro hc
      apply hnd.1
      rw [← hqk] at hc
      exact hc
    · rw [if_neg hq, List.map_cons, List.nodup_cons]
      refine ⟨?_, ih k v hnd.2⟩
      intro hc
      rcases mapSet_keys_mem rest k v q.1 hc with hm | hm
      · exact hnd.1 hm
      · rw [← hm] at hq
        simp at hq

theorem foldl_add_nodup : ∀ (delta acc : List (String × Nat)),
    (acc.map Prod.fst).Nodup →
    ((delta.foldl (fun m e => mapSet m e.1 ((mapGet m e.1).getD 0 + e.2)) acc).map Prod.fst).Nodup := by
  intro delta
  induction delta with
  | nil => intro acc h; exact h
  | cons e rest ih =>
    intro acc h
    rw [List.foldl_cons]
    exact ih _ (mapSet_keys_nodup acc e.1 _ h)

theorem merge_mapGet (existing delta : List (String × Nat))
    (hex : (existing.map Prod.fst).Nodup) (hdx : (delta.map Prod.fst).Nodup) (w : String) :
    mapGet (mergeWordFrequency existing delta) w =
      if w ∈ delta.map Prod.fst then some ((mapGet existing w).getD 0 + lookupCount delta w)
      else mapGet existing w := by
  unfold mergeWordFrequency
  dsimp only
  rw [foldl_mapSet_eq existing [] (fun e _ q hq => absurd hq (List.not_mem_nil q)) hex,
    List.nil_append]
  have hnd2 := foldl_add_nodup delta existing hex
  rw [mapGet_eq_of_perm _ _ (sortByCountDesc_perm _)
    ((((sortByCountDesc_perm _).map Prod.fst).nodup_iff).2 hnd2) w]
  exact foldl_add_lookup delta hdx existing w

theorem merge_lookupCount (existing delta : List (String × Nat))
    (hex : (existing.map Prod.fst).Nodup) (hdx : (delta.map Prod.fst).Nodup) (w : String) :
    lookupCount (mergeWordFrequency existing delta) w =
      lookupCount existing w + lookupCount delta w := by
  rw [lookupCount, merge_mapGet existing delta hex hdx w]
  by_cases hmem : w ∈ delta.map Prod.fst
  · rw [if_pos hmem]
    rfl
  · rw [if_neg hmem]
    have hnone : mapGet delta w = none := mapGet_eq_none_of_not_mem delta w hmem
    rw [lookupCount, lookupCount, hnone]
    simp

theorem merge_nodup (existing delta : List (String × Nat))
    (hex : (existing.map Prod.fst).Nodup) :
    ((mergeWordFrequency existing delta).map Prod.fst).Nodup := by
  unfold mergeWordFrequency
  dsimp only
  rw [foldl_mapSet_eq existing [] (fun e _ q hq => absurd hq (List.not_mem_nil q)) hex,
    List.nil_append]
  have hnd2 := foldl_add_nodup delta existing hex
  exact (((sortByCountDesc_perm _).map Prod.fst).nodup_iff).2 hnd2

/-- C9: the frequency merge is additive and not idempotent: merging a
delta containing word w with count c into a well-formed table where w
has count k yields count k plus c, with absent words defaulting to 0;
merging an empty delta leaves the table unchanged; merging the same
non-empty delta twice adds its contribution twice; and the rewritten
table is sorted descending by count. -/
theorem c9_merge_additive (existing delta : List (String × Nat))
    (hex : (existing.map Prod.fst).Nodup)
    (hdx : (delta.map Prod.fst).Nodup)
    (hsorted : SortedByCountDesc existing) :
    (∀ w, lookupCount (mergeWordFrequency existing delta) w =
        lookupCount existing w + lookupCount delta w) ∧
    mergeWordFrequency existing [] = existing ∧
    SortedByCountDesc (mergeWordFrequency existing delta) ∧
    (∀ w, lookupCount (mergeWordFrequency (mergeWordFrequency existing delta) delta) w =
        lookupCount existing w + 2 * lookupCount delta w) := by
  refine ⟨fun w => merge_lookupCount existing delta hex hdx w, ?_, ?_, ?_⟩
  · unfold mergeWordFrequency
    dsimp only
    rw [foldl_mapSet_eq existing [] (fun e _ q hq => absurd hq (List.not_mem_nil q)) hex,
      List.nil_append, List.foldl_nil]
    exact sortByCountDesc_of_sorted existing hsorted
  · unfold mergeWordFrequency
    dsimp only
    exact sortByCountDesc_sorted _
  · intro w
    rw [merge_lookupCount (mergeWordFrequency existing delta) delta
        (merge_nodup existing delta hex) hdx w,
      merge_lookupCount existing delta hex hdx w]
    omega

theorem c9_merge_additive_witness :
    lookupCount (mergeWordFrequency [("la", 431)] [("la", 5)]) "la" =
      lookupCount [("la", 431)] "la" + lookupCount [("la", 5)] "la" :=
  (c9_merge_additive [("la", 431)] [("la", 5)] (by decide) (by decide)
    (List.pairwise_singleton _ _)).1 "la"

-- ───────── translate clients: cache scan and batch loop ─────────

theorem getD_drop_eq {α : Type} (l : List α) (d : α) (K m : Nat) :
    (l.drop K).getD m d = l.getD (K + m) d := by
  rw [List.getD_eq_getElem?_getD, List.getD_eq_getElem?_getD, List.getElem?_drop]

theorem getD_take_eq {α : Type} (l : List α) (d : α) (K m : Nat) (h : m < K) :
    (l.take K).getD m d = l.getD m d := by
  rw [List.getD_eq_getElem?_getD, List.getD_eq_getElem?_getD, List.getElem?_take]
  rw [if_pos h]

theorem getD_mem_of_lt {α : Type} (l : List α) (d : α) (g : Nat) (h : g < l.length) :
    l.getD g d ∈ l := by
  rw [List.getD_eq_getElem l d h]
  exact List.getElem_mem h

theorem nodup_getD_ne (l : List Nat) (hnd : l.Nodup) (g j : Nat)
    (hg : g < l.length) (hj : j < l.length) (hne : g ≠ j) :
    l.getD g 0 ≠ l.getD j 0 := by
  intro hc
  rw [List.getD_eq_getElem l 0 hg, List.getD_eq_getElem l 0 hj] at hc
  exact hne ((List.Nodup.getElem_inj_iff hnd).1 hc)

theorem nodup_getD_not_mem_drop (l : List Nat) (hnd : l.Nodup) (g K : Nat)
    (hg : g < l.length) (hgK : g < K) : l.getD g 0 ∉ l.drop K := by
  intro hmem
  obtain ⟨m, hm, hval⟩ := List.mem_iff_getElem.1 hmem
  rw [List.getElem_drop] at hval
  rw [List.getD_eq_getElem l 0 hg] at hval
  have hKm : K + m < l.length := by
    rw [List.length_drop] at hm
    omega
  have := (List.Nodup.getElem_inj_iff hnd).1 hval
  omega

theorem cacheKey_inj (s t a b : String) (h : cacheKey s t a = cacheKey s t b) : a = b := by
  have h0 : (s.data ++ ':' :: t.data ++ ':' :: a.data) =
      (s.data ++ ':' :: t.data ++ ':' :: b.data) := congrArg String.data h
  have h1 := List.append_cancel_left h0
  injection h1 with _ h2
  cases a
  cases b
  exact congrArg String.mk (by simpa using h2)

theorem scanCacheAux_succ (cache : String → Option String) (s t : String)
    (texts : List String) (n : Nat) :
    scanCacheAux cache s t texts (n + 1) =
      scanStep cache s t texts (scanCacheAux cache s t texts n) n := by
  unfold scanCacheAux
  rw [List.range_succ, List.foldl_append, List.foldl_cons, List.foldl_nil]

theorem scanCacheAux_spec (cache : String → Option String) (s t : String)
    (texts : List String) : ∀ n,
    (∀ j, (scanCacheAux cache s t texts n).results j =
        if j < n then truthy (cache (cacheKey s t (texts.getD j ""))) else none) ∧
    (scanCacheAux cache s t texts n).uncachedIndices =
      (List.range n).filter (fun i => (truthy (cache (cacheKey s t (texts.getD i "")))).isNone) ∧
    (scanCacheAux cache s t texts n).uncachedTexts =
      ((List.range n).filter
        (fun i => (truthy (cache (cacheKey s t (texts.getD i "")))).isNone)).map
        (fun i => texts.getD i "") := by
  intro n
  induction n with
  | zero =>
    refine ⟨fun j => ?_, rfl, rfl⟩
    rw [if_neg (by omega)]
    rfl
  | succ n ih =>
    rw [scanCacheAux_succ]
    rw [scanStep]
    cases hc : truthy (cache (cacheKey s t (texts.getD n ""))) with
    | some c =>
      refine ⟨fun j => ?_, ?_, ?_⟩
      · dsimp only
        by_cases hj : j = n
        · subst hj
          rw [if_pos rfl, if_pos (by omega), hc]
        · rw [if_neg hj, ih.1 j]
          by_cases hjn : j < n
          · rw [if_pos hjn, if_pos (by omega)]
          · rw [if_neg hjn, if_neg (by omega)]
      · dsimp only
        rw [ih.2.1, List.range_succ, List.filter_append]
        have : (List.filter (fun i => (truthy (cache (cacheKey s t (texts.getD i "")))).isNone)
            [n]) = [] := by
          rw [List.filter_cons]
          rw [if_neg (by rw [hc]; simp)]
          rfl
        rw [this, List.append_nil]
      · dsimp only
        rw [ih.2.2, List.range_succ, List.filter_append]
        have : (List.filter (fun i => (truthy (cache (cacheKey s t (texts.getD i "")))).isNone)
            [n]) = [] := by
          rw [List.filter_cons]
          rw [if_neg (by rw [hc]; simp)]
          rfl
        rw [this, List.append_nil]
    | none =>
      refine ⟨fun j => ?_, ?_, ?_⟩
      · dsimp only
        rw [ih.1 j]
        by_cases hjn : j < n
        · rw [if_pos hjn, if_pos (by omega)]
        · by_cases hj : j = n
          · subst hj
            rw [if_neg (by omega), if_pos (by omega), hc]
          · rw [if_neg hjn, if_neg (by omega)]
      · dsimp only
        rw [ih.2.1, List.range_succ, List.filter_append]
        have : (List.filter (fun i => (truthy (cache (cacheKey s t (texts.getD i "")))).isNone)
            [n]) = [n] := by
          rw [List.filter_cons]
          rw [if_pos (by rw [hc]; simp)]
          rfl
        rw [this]
      · dsimp only
        rw [ih.2.2, List.range_succ, List.filter_append]
        have : (List.filter (fun i => (truthy (cache (cacheKey s t (texts.getD i "")))).isNone)
            [n]) = [n] := by
          rw [List.filter_cons]
          rw [if_pos (by rw [hc]; simp)]
          rfl
        rw [this, List.map_append]
        rfl

theorem filter_range_map_getD (P : String → Bool) : ∀ (texts : List String),
    ((List.range texts.length).filter (fun i => P (texts.getD i ""))).map
      (fun i => texts.getD i "") = texts.filter P := by
  intro texts
  induction texts with
  | nil => rfl
  | cons x xs ih =>
    rw [List.length_cons, List.range_succ_eq_map]
    rw [List.filter_cons]
    by_cases hP : P ((x :: xs).getD 0 "")
    · rw [if_pos hP, List.map_cons]
      have hx : (x :: xs).getD 0 "" = x := rfl
      rw [hx]
      rw [List.filter_cons, if_pos (by simpa [hx] using hP)]
      congr 1
      rw [List.filter_map, List.map_map]
      rw [← ih]
      congr 1
    · rw [if_neg hP]
      have hx : (x :: xs).getD 0 "" = x := rfl
      rw [List.filter_cons, if_neg (by simpa [hx] using hP)]
      rw [List.filter_map, List.map_map]
      rw [← ih]
      congr 1

theorem clientFold_succ (source target : String) (v : Nat → String) (batch : List String)
    (uidx : List Nat) (n : Nat) (results : Nat → Option String)
    (cache : String → Option String) :
    clientFold source target v batch uidx (n + 1) results cache =
      (fun j1 => if j1 = uidx.getD n 0 then some (v n)
        else (clientFold source target v batch uidx n results cache).1 j1,
       fun k => if k = cacheKey source target (batch.getD n "") then some (v n)
         else (clientFold source target v batch uidx n results cache).2 k) := by
  unfold clientFold
  rw [List.range_succ, List.foldl_append, List.foldl_cons, List.foldl_nil]

theorem clientFold_spec (source target : String) (v : Nat → String) (batch : List String)
    (uidx : List Nat) (f : String → String)
    (hval : ∀ j, j < batch.length → v j = f (batch.getD j ""))
    (hlen : batch.length ≤ uidx.length) (hnd : uidx.Nodup) :
    ∀ n, n ≤ batch.length →
    ∀ (results : Nat → Option String) (cache : String → Option String),
    (∀ j', (∀ j, j < n → j' ≠ uidx.getD j 0) →
      (clientFold source target v batch uidx n results cache).1 j' = results j') ∧
    (∀ g, g < n →
      (clientFold source target v batch uidx n results cache).1 (uidx.getD g 0) =
        some (f (batch.getD g ""))) ∧
    (∀ k, (∀ j, j < n → k ≠ cacheKey source target (batch.getD j "")) →
      (clientFold source target v batch uidx n results cache).2 k = cache k) ∧
    (∀ g, g < n →
      (clientFold source target v batch uidx n results cache).2
        (cacheKey source target (batch.getD g "")) = some (f (batch.getD g ""))) := by
  intro n
  induction n with
  | zero =>
    intro _ results cache
    exact ⟨fun _ _ => rfl, fun g hg => absurd hg (by omega),
      fun _ _ => rfl, fun g hg => absurd hg (by omega)⟩
  | succ n ih =>
    intro hn results cache
    obtain ⟨c1, c2, c3, c4⟩ := ih (by omega) results cache
    rw [clientFold_succ]
    refine ⟨?_, ?_, ?_, ?_⟩
    · intro j' hj'
      dsimp only
      rw [if_neg (hj' n (by omega))]
      exact c1 j' (fun j hj => hj' j (by omega))
    · intro g hg
      dsimp only
      by_cases hgn : g = n
      · subst hgn
        rw [if_pos rfl, hval g (by omega)]
      · rw [if_neg ?_]
        · exact c2 g (by omega)
        · exact nodup_getD_ne uidx hnd g n (by omega) (by omega) hgn
    · intro k hk
      dsimp only
      rw [if_neg (hk n (by omega))]
      exact c3 k (fun j hj => hk j (by omega))
    · intro g hg
      dsimp only
      by_cases hgn : g = n
      · subst hgn
        rw [if_pos rfl, hval g (by omega)]
      · by_cases hkey : cacheKey source target (batch.getD g "") =
            cacheKey source target (batch.getD n "")
        · rw [if_pos hkey, hval n (by omega)]
          rw [cacheKey_inj source target _ _ hkey]
        · rw [if_neg hkey]
          exact c4 g (by omega)

theorem processBatches_cons (backend : List String → String) (source target : String)
    (fuel : Nat) (u : String) (urest : List String) (uidx : List Nat)
    (results : Nat → Option String) (cache : String → Option String) :
    processBatches backend source target (fuel + 1) (u :: urest) uidx results cache =
      processBatches backend source target fuel ((u :: urest).drop 20) (uidx.drop 20)
        (clientFold source target
          (fun j => lineResult (parsedLines (backend ((u :: urest).take 20)))
            ((u :: urest).take 20) j)
          ((u :: urest).take 20) uidx ((u :: urest).take 20).length results cache).1
        (clientFold source target
          (fun j => lineResult (parsedLines (backend ((u :: urest).take 20)))
            ((u :: urest).take 20) j)
          ((u :: urest).take 20) uidx ((u :: urest).take 20).length results cache).2 := rfl

theorem processBatches_spec (backend : List String → String) (source target : String)
    (f : String → String)
    (hB : ∀ batch j, j < batch.length →
      lineResult (parsedLines (backend batch)) batch j = f (batch.getD j "")) :
    ∀ (fuel : Nat) (us : List String) (uidx : List Nat)
      (results : Nat → Option String) (cache : String → Option String),
    us.length ≤ fuel → uidx.length = us.length → uidx.Nodup →
    (∀ j', j' ∉ uidx →
      (processBatches backend source target fuel us uidx results cache).1 j' = results j') ∧
    (∀ g, g < us.length →
      (processBatches backend source target fuel us uidx results cache).1 (uidx.getD g 0) =
        some (f (us.getD g ""))) ∧
    (∀ k, (∀ x, x ∈ us → k ≠ cacheKey source target x) →
      (processBatches backend source target fuel us uidx results cache).2 k = cache k) ∧
    (∀ x, x ∈ us →
      (processBatches backend source target fuel us uidx results cache).2
        (cacheKey source target x) = some (f x)) := by
  intro fuel
  induction fuel with
  | zero =>
    intro us uidx results cache hf hlen hnd
    have hus : us = [] := List.eq_nil_of_length_eq_zero (Nat.le_zero.mp hf)
    subst hus
    exact ⟨fun _ _ => rfl, fun g hg => absurd hg (by simp), fun _ _ => rfl,
      fun x hx => absurd hx (List.not_mem_nil x)⟩
  | succ fuel ih =>
    intro us uidx results cache hf hlen hnd
    cases us with
    | nil =>
      exact ⟨fun _ _ => rfl, fun g hg => absurd hg (by simp), fun _ _ => rfl,
        fun x hx => absurd hx (List.not_mem_nil x)⟩
    | cons u urest =>
      rw [processBatches_cons]
      have husl : (u :: urest).length = urest.length + 1 := by rw [List.length_cons]
      have hbl : ((u :: urest).take 20).length = min 20 (u :: urest).length := by
        rw [List.length_take]
      have hblle : ((u :: urest).take 20).length ≤ uidx.length := by omega
      obtain ⟨c1, c2, c3, c4⟩ := clientFold_spec source target
        (fun j => lineResult (parsedLines (backend ((u :: urest).take 20)))
          ((u :: urest).take 20) j)
        ((u :: urest).take 20) uidx f
        (fun j hj => hB ((u :: urest).take 20) j hj)
        hblle hnd ((u :: urest).take 20).length (le_refl _) results cache
      generalize hRC : clientFold source target
          (fun j => lineResult (parsedLines (backend ((u :: urest).take 20)))
            ((u :: urest).take 20) j)
          ((u :: urest).take 20) uidx ((u :: urest).take 20).length results cache = RC
      rw [hRC] at c1 c2 c3 c4
      have hf' : ((u :: urest).drop 20).length ≤ fuel := by
        rw [List.length_drop]
        omega
      have hlen' : (uidx.drop 20).length = ((u :: urest).drop 20).length := by
        rw [List.length_drop, List.length_drop, hlen]
      have hnd' : (uidx.drop 20).Nodup := (List.drop_sublist 20 uidx).nodup hnd
      obtain ⟨d1, d2, d3, d4⟩ := ih ((u :: urest).drop 20) (uidx.drop 20) RC.1 RC.2
        hf' hlen' hnd'
      refine ⟨?_, ?_, ?_, ?_⟩
      · intro j' hj'
        rw [d1 j' (fun hmem => hj' (List.mem_of_mem_drop hmem))]
        exact c1 j' (fun j hj heq =>
          hj' (by rw [heq]; exact getD_mem_of_lt uidx 0 j (lt_of_lt_of_le hj hblle)))
      · intro g hg
        by_cases hgb : g < ((u :: urest).take 20).length
        · have hk20 : g < 20 := by omega
          have hnotin : uidx.getD g 0 ∉ uidx.drop 20 :=
            nodup_getD_not_mem_drop uidx hnd g 20 (lt_of_lt_of_le hgb hblle) hk20
          rw [d1 _ hnotin, c2 g hgb]
          rw [getD_take_eq (u :: urest) "" 20 g hk20]
        · have h20 : ((u :: urest).take 20).length = 20 := by omega
          have hgd : g - 20 < ((u :: urest).drop 20).length := by
            rw [List.length_drop]
            omega
          have hthis := d2 (g - 20) hgd
          rw [getD_drop_eq, getD_drop_eq] at hthis
          have h20g : 20 + (g - 20) = g := by omega
          rw [h20g] at hthis
          exact hthis
      · intro k hk
        rw [d3 k (fun x hx => hk x (List.mem_of_mem_drop hx))]
        exact c3 k (fun j hj =>
          hk _ (List.mem_of_mem_take (getD_mem_of_lt ((u :: urest).take 20) "" j hj)))
      · intro x hx
        by_cases hxd : x ∈ (u :: urest).drop 20
        · exact d4 x hxd
        · have hx' : x ∈ (u :: urest).take 20 ++ (u :: urest).drop 20 := by
            rw [List.take_append_drop]
            exact hx
          have hxb : x ∈ (u :: urest).take 20 := by
            rcases List.mem_append.1 hx' with h | h
            · exact h
            · exact absurd h hxd
          obtain ⟨g, hgl, hgx⟩ := List.mem_iff_getElem.1 hxb
          have hgd : ((u :: urest).take 20).getD g "" = x := by
            rw [List.getD_eq_getElem _ "" hgl]
            exact hgx
          rw [d3 _ (fun y hy heq =>
            hxd (by rw [cacheKey_inj source target x y heq]; exact hy))]
          have hc := c4 g hgl
          rw [hgd] at hc
          exact hc

theorem processBatchesG_cons (backend : List String → List String) (source target : String)
    (fuel : Nat) (u : String) (urest : List String) (uidx : List Nat)
    (results : Nat → Option String) (cache : String → Option String) :
    processBatchesG backend source target (fuel + 1) (u :: urest) uidx results cache =
      processBatchesG backend source target fuel ((u :: urest).drop 128)
        (uidx.drop (backend ((u :: urest).take 128)).length)
        (clientFold source target
          (fun j => (backend ((u :: urest).take 128)).getD j "")
          ((u :: urest).take 128) uidx (backend ((u :: urest).take 128)).length
          results cache).1
        (clientFold source target
          (fun j => (backend ((u :: urest).take 128)).getD j "")
          ((u :: urest).take 128) uidx (backend ((u :: urest).take 128)).length
          results cache).2 := rfl

theorem processBatchesG_spec (backend : List String → List String) (source target : String)
    (f : String → String)
    (hBG : ∀ batch, (backend batch).length = batch.length ∧
      ∀ j, j < batch.length → (backend batch).getD j "" = f (batch.getD j "")) :
    ∀ (fuel : Nat) (us : List String) (uidx : List Nat)
      (results : Nat → Option String) (cache : String → Option String),
    us.length ≤ fuel → uidx.length = us.length → uidx.Nodup →
    (∀ j', j' ∉ uidx →
      (processBatchesG backend source target fuel us uidx results cache).1 j' = results j') ∧
    (∀ g, g < us.length →
      (processBatchesG backend source target fuel us uidx results cache).1 (uidx.getD g 0) =
        some (f (us.getD g ""))) ∧
    (∀ k, (∀ x, x ∈ us → k ≠ cacheKey source target x) →
      (processBatchesG backend source target fuel us uidx results cache).2 k = cache k) ∧
    (∀ x, x ∈ us →
      (processBatchesG backend source target fuel us uidx results cache).2
        (cacheKey source target x) = some (f x)) := by
  intro fuel
  induction fuel with
  | zero =>
    intro us uidx results cache hf hlen hnd
    have hus : us = [] := List.eq_nil_of_length_eq_zero (Nat.le_zero.mp hf)
    subst hus
    exact ⟨fun _ _ => rfl, fun g hg => absurd hg (by simp), fun _ _ => rfl,
      fun x hx => absurd hx (List.not_mem_nil x)⟩
  | succ fuel ih =>
    intro us uidx results cache hf hlen hnd
    cases us with
    | nil =>
      exact ⟨fun _ _ => rfl, fun g hg => absurd hg (by simp), fun _ _ => rfl,
        fun x hx => absurd hx (List.not_mem_nil x)⟩
    | cons u urest =>
      rw [processBatchesG_cons]
      have hrl : (backend ((u :: urest).take 128)).length = ((u :: urest).take 128).length :=
        (hBG ((u :: urest).take 128)).1
      rw [hrl]
      have husl : (u :: urest).length = urest.length + 1 := by rw [List.length_cons]
      have hbl : ((u :: urest).take 128).length = min 128 (u :: urest).length := by
        rw [List.length_take]
      have hblle : ((u :: urest).take 128).length ≤ uidx.length := by omega
      obtain ⟨c1, c2, c3, c4⟩ := clientFold_spec source target
        (fun j => (backend ((u :: urest).take 128)).getD j "")
        ((u :: urest).take 128) uidx f
        (fun j hj => (hBG ((u :: urest).take 128)).2 j hj)
        hblle hnd ((u :: urest).take 128).length (le_refl _) results cache
      generalize hRC : clientFold source target
          (fun j => (backend ((u :: urest).take 128)).getD j "")
          ((u :: urest).take 128) uidx ((u :: urest).take 128).length results cache = RC
      rw [hRC] at c1 c2 c3 c4
      have hf' : ((u :: urest).drop 128).length ≤ fuel := by
        rw [List.length_drop]
        omega
      have hlen' : (uidx.drop ((u :: urest).take 128).length).length =
          ((u :: urest).drop 128).length := by
        rw [List.length_drop, List.length_drop, hlen]
        omega
      have hnd' : (uidx.drop ((u :: urest).take 128).length).Nodup :=
        (List.drop_sublist ((u :: urest).take 128).length uidx).nodup hnd
      obtain ⟨d1, d2, d3, d4⟩ := ih ((u :: urest).drop 128)
        (uidx.drop ((u :: urest).take 128).length) RC.1 RC.2 hf' hlen' hnd'
      refine ⟨?_, ?_, ?_, ?_⟩
      · intro j' hj'
        rw [d1 j' (fun hmem => hj' (List.mem_of_mem_drop hmem))]
        exact c1 j' (fun j hj heq =>
          hj' (by rw [heq]; exact getD_mem_of_lt uidx 0 j (lt_of_lt_of_le hj hblle)))
      · intro g hg
        by_cases hgb : g < ((u :: urest).take 128).length
        · have hk128 : g < 128 := by omega
          have hnotin : uidx.getD g 0 ∉ uidx.drop ((u :: urest).take 128).length :=
            nodup_getD_not_mem_drop uidx hnd g ((u :: urest).take 128).length
              (lt_of_lt_of_le hgb hblle) hgb
          rw [d1 _ hnotin, c2 g hgb]
          rw [getD_take_eq (u :: urest) "" 128 g hk128]
        · have h128 : ((u :: urest).take 128).length = 128 := by omega
          have hgd : g - 128 < ((u :: urest).drop 128).length := by
            rw [List.length_drop]
            omega
          have hthis := d2 (g - 128) hgd
          rw [getD_drop_eq, getD_drop_eq] at hthis
          have hKg : ((u :: urest).take 128).length + (g - 128) = g := by omega
          have h128g : 128 + (g - 128) = g := by omega
          rw [hKg, h128g] at hthis
          exact hthis
      · intro k hk
        rw [d3 k (fun x hx => hk x (List.mem_of_mem_drop hx))]
        exact c3 k (fun j hj =>
          hk _ (List.mem_of_mem_take (getD_mem_of_lt ((u :: urest).take 128) "" j hj)))
      · intro x hx
        by_cases hxd : x ∈ (u :: urest).drop 128
        · exact d4 x hxd
        · have hx' : x ∈ (u :: urest).take 128 ++ (u :: urest).drop 128 := by
            rw [List.take_append_drop]
            exact hx
          have hxb : x ∈ (u :: urest).take 128 := by
            rcases List.mem_append.1 hx' with h | h
            · exact h
            · exact absurd h hxd
          obtain ⟨g, hgl, hgx⟩ := List.mem_iff_getElem.1 hxb
          have hgd : ((u :: urest).take 128).getD g "" = x := by
            rw [List.getD_eq_getElem _ "" hgl]
            exact hgx
          rw [d3 _ (fun y hy heq =>
            hxd (by rw [cacheKey_inj source target x y heq]; exact hy))]
          have hc := c4 g hgl
          rw [hgd] at hc
          exact hc

theorem range_map_getD (n : Nat) (g : Nat → String) (i : Nat) (h : i < n) :
    ((List.range n).map g).getD i "" = g i := by
  have h1 : i < ((List.range n).map g).length := by simpa using h
  rw [List.getD_eq_getElem _ "" h1, List.getElem_map, List.getElem_range]

theorem map_getD_str (l : List Nat) (m : Nat → String) (g : Nat) (h : g < l.length) :
    (l.map m).getD g "" = m (l.getD g 0) := by
  have h1 : g < (l.map m).length := by simpa using h
  rw [List.getD_eq_getElem _ "" h1, List.getD_eq_getElem _ 0 h, List.getElem_map]

theorem geminiTranslate_contract (backend : List String → String) (source target : String)
    (f : String → String)
    (hB : ∀ batch j, j < batch.length →
      lineResult (parsedLines (backend batch)) batch j = f (batch.getD j ""))
    (texts : List String) (cache : String → Option String) :
    (geminiTranslate backend texts source target cache).1.length = texts.length ∧
    (∀ i c, i < texts.length →
      truthy (cache (cacheKey source target (texts.getD i ""))) = some c →
      (geminiTranslate backend texts source target cache).1.getD i "" = c) ∧
    (∀ i, i < texts.length →
      truthy (cache (cacheKey source target (texts.getD i ""))) = none →
      (geminiTranslate backend texts source target cache).1.getD i "" = f (texts.getD i "")) ∧
    (scanCache cache source target texts).uncachedTexts =
      texts.filter (fun x => (truthy (cache (cacheKey source target x))).isNone) ∧
    (∀ x, x ∈ texts → truthy (cache (cacheKey source target x)) = none →
      (geminiTranslate backend texts source target cache).2 (cacheKey source target x) =
        some (f x)) ∧
    (∀ k, (∀ x, x ∈ texts → k ≠ cacheKey source target x) →
      (geminiTranslate backend texts source target cache).2 k = cache k) := by
  obtain ⟨hres, hidx, htxt⟩ := scanCacheAux_spec cache source target texts texts.length
  have htxtF : (scanCacheAux cache source target texts texts.length).uncachedTexts =
      texts.filter (fun x => (truthy (cache (cacheKey source target x))).isNone) := by
    rw [htxt]
    exact filter_range_map_getD
      (fun x => (truthy (cache (cacheKey source target x))).isNone) texts
  have hF4 : (scanCache cache source target texts).uncachedTexts =
      texts.filter (fun x => (truthy (cache (cacheKey source target x))).isNone) := htxtF
  have hgEq : geminiTranslate backend texts source target cache =
      (if (scanCacheAux cache source target texts texts.length).uncachedTexts.isEmpty then
        ((List.range texts.length).map
          (fun i => ((scanCacheAux cache source target texts texts.length).results i).getD ""),
         cache)
      else
        ((List.range texts.length).map (fun i =>
          ((processBatches backend source target
              (scanCacheAux cache source target texts texts.length).uncachedTexts.length
              (scanCacheAux cache source target texts texts.length).uncachedTexts
              (scanCacheAux cache source target texts texts.length).uncachedIndices
              (scanCacheAux cache source target texts texts.length).results cache).1 i).getD ""),
         (processBatches backend source target
            (scanCacheAux cache source target texts texts.length).uncachedTexts.length
            (scanCacheAux cache source target texts texts.length).uncachedTexts
            (scanCacheAux cache source target texts texts.length).uncachedIndices
            (scanCacheAux cache source target texts texts.length).results cache).2)) := rfl
  by_cases hE : (scanCacheAux cache source target texts texts.length).uncachedTexts.isEmpty
  · have hnilT : (scanCacheAux cache source target texts texts.length).uncachedTexts = [] :=
      List.isEmpty_iff.mp hE
    refine ⟨?_, ?_, ?_, hF4, ?_, ?_⟩
    · rw [hgEq, if_pos hE]
      dsimp only
      rw [List.length_map, List.length_range]
    · intro i c hi hc
      rw [hgEq, if_pos hE]
      dsimp only
      rw [range_map_getD texts.length _ i hi]
      rw [hres i, if_pos hi, hc]
      rfl
    · intro i hi hmiss
      exfalso
      have hfe : ((List.range texts.length).filter
          (fun i => (truthy (cache (cacheKey source target (texts.getD i "")))).isNone)) = [] := by
        have hmapnil : (((List.range texts.length).filter
            (fun i => (truthy (cache (cacheKey source target (texts.getD i "")))).isNone)).map
            (fun i => texts.getD i "")) = [] := by
          rw [← htxt]
          exact hnilT
        exact List.map_eq_nil_iff.mp hmapnil
      have hmem : i ∈ (List.range texts.length).filter
          (fun i => (truthy (cache (cacheKey source target (texts.getD i "")))).isNone) :=
        List.mem_filter.2 ⟨List.mem_range.2 hi, by rw [hmiss]; rfl⟩
      rw [hfe] at hmem
      exact List.not_mem_nil i hmem
    · intro x hx hmiss
      exfalso
      have hxf : x ∈ texts.filter (fun x => (truthy (cache (cacheKey source target x))).isNone) :=
        List.mem_filter.2 ⟨hx, by rw [hmiss]; rfl⟩
      rw [← htxtF, hnilT] at hxf
      exact List.not_mem_nil x hxf
    · intro k _
      rw [hgEq, if_pos hE]
  · have hndI : (scanCacheAux cache source target texts texts.length).uncachedIndices.Nodup := by
      rw [hidx]
      exact (List.nodup_range texts.length).filter _
    have hlenIT : (scanCacheAux cache source target texts texts.length).uncachedIndices.length =
        (scanCacheAux cache source target texts texts.length).uncachedTexts.length := by
      rw [htxt, hidx, List.length_map]
    obtain ⟨d1, d2, d3, d4⟩ := processBatches_spec backend source target f hB
      (scanCacheAux cache source target texts texts.length).uncachedTexts.length
      (scanCacheAux cache source target texts texts.length).uncachedTexts
      (scanCacheAux cache source target texts texts.length).uncachedIndices
      (scanCacheAux cache source target texts texts.length).results cache
      (le_refl _) hlenIT hndI
    have hTmap : (scanCacheAux cache source target texts texts.length).uncachedTexts =
        ((scanCacheAux cache source target texts texts.length).uncachedIndices).map
          (fun i => texts.getD i "") := by
      rw [htxt, hidx]
    refine ⟨?_, ?_, ?_, hF4, ?_, ?_⟩
    · rw [hgEq, if_neg hE]
      dsimp only
      rw [List.length_map, List.length_range]
    · intro i c hi hc
      rw [hgEq, if_neg hE]
      dsimp only
      rw [range_map_getD texts.length _ i hi]
      have hnotin : i ∉ (scanCacheAux cache source target texts texts.length).uncachedIndices := by
        rw [hidx]
        intro hmem
        have hisn := (List.mem_filter.1 hmem).2
        rw [hc] at hisn
        simp at hisn
      rw [d1 i hnotin, hres i, if_pos hi, hc]
      rfl
    · intro i hi hmiss
      rw [hgEq, if_neg hE]
      dsimp only
      rw [range_map_getD texts.length _ i hi]
      have hmem : i ∈ (scanCacheAux cache source target texts texts.length).uncachedIndices := by
        rw [hidx]
        exact List.mem_filter.2 ⟨List.mem_range.2 hi, by rw [hmiss]; rfl⟩
      obtain ⟨g, hgl, hgx⟩ := List.mem_iff_getElem.1 hmem
      have hgD : (scanCacheAux cache source target texts texts.length).uncachedIndices.getD g 0
          = i := by
        rw [List.getD_eq_getElem _ 0 hgl]
        exact hgx
      have hgT : g < (scanCacheAux cache source target texts texts.length).uncachedTexts.length := by
        rw [← hlenIT]
        exact hgl
      have hd := d2 g hgT
      rw [hgD] at hd
      have hTg : (scanCacheAux cache source target texts texts.length).uncachedTexts.getD g ""
          = texts.getD i "" := by
        rw [hTmap, map_getD_str _ _ g hgl, hgD]
      rw [hTg] at hd
      rw [hd]
      rfl
    · intro x hx hmiss
      rw [hgEq, if_neg hE]
      dsimp only
      have hxT : x ∈ (scanCacheAux cache source target texts texts.length).uncachedTexts := by
        rw [htxtF]
        exact List.mem_filter.2 ⟨hx, by rw [hmiss]; rfl⟩
      exact d4 x hxT
    · intro k hk
      rw [hgEq, if_neg hE]
      dsimp only
      refine d3 k (fun y hy => ?_)
      rw [htxtF] at hy
      exact hk y (List.mem_filter.1 hy).1

theorem googleTranslate_contract (backend : List String → List String) (source target : String)
    (f : String → String)
    (hBG : ∀ batch, (backend batch).length = batch.length ∧
      ∀ j, j < batch.length → (backend batch).getD j "" = f (batch.getD j ""))
    (texts : List String) (cache : String → Option String) :
    (googleTranslate backend texts source target cache).1.length = texts.length ∧
    (∀ i c, i < texts.length →
      truthy (cache (cacheKey source target (texts.getD i ""))) = some c →
      (googleTranslate backend texts source target cache).1.getD i "" = c) ∧
    (∀ i, i < texts.length →
      truthy (cache (cacheKey source target (texts.getD i ""))) = none →
      (googleTranslate backend texts source target cache).1.getD i "" = f (texts.getD i "")) ∧
    (scanCache cache source target texts).uncachedTexts =
      texts.filter (fun x => (truthy (cache (cacheKey source target x))).isNone) ∧
    (∀ x, x ∈ texts → truthy (cache (cacheKey source target x)) = none →
      (googleTranslate backend texts source target cache).2 (cacheKey source target x) =
        some (f x)) ∧
    (∀ k, (∀ x, x ∈ texts → k ≠ cacheKey source target x) →
      (googleTranslate backend texts source target cache).2 k = cache k) := by
  obtain ⟨hres, hidx, htxt⟩ := scanCacheAux_spec cache source target texts texts.length
  have htxtF : (scanCacheAux cache source target texts texts.length).uncachedTexts =
      texts.filter (fun x => (truthy (cache (cacheKey source target x))).isNone) := by
    rw [htxt]
    exact filter_range_map_getD
      (fun x => (truthy (cache (cacheKey source target x))).isNone) texts
  have hF4 : (scanCache cache source target texts).uncachedTexts =
      texts.filter (fun x => (truthy (cache (cacheKey source target x))).isNone) := htxtF
  have hgEq : googleTranslate backend texts source target cache =
      (if (scanCacheAux cache source target texts texts.length).uncachedTexts.isEmpty then
        ((List.range texts.length).map
          (fun i => ((scanCacheAux cache source target texts texts.length).results i).getD ""),
         cache)
      else
        ((List.range texts.length).map (fun i =>
          ((processBatchesG backend source target
              (scanCacheAux cache source target texts texts.length).uncachedTexts.length
              (scanCacheAux cache source target texts texts.length).uncachedTexts
              (scanCacheAux cache source target texts texts.length).uncachedIndices
              (scanCacheAux cache source target texts texts.length).results cache).1 i).getD ""),
         (processBatchesG backend source target
            (scanCacheAux cache source target texts texts.length).uncachedTexts.length
            (scanCacheAux cache source target texts texts.length).uncachedTexts
            (scanCacheAux cache source target texts texts.length).uncachedIndices
            (scanCacheAux cache source target texts texts.length).results cache).2)) := rfl
  by_cases hE : (scanCacheAux cache source target texts texts.length).uncachedTexts.isEmpty
  · have hnilT : (scanCacheAux cache source target texts texts.length).uncachedTexts = [] :=
      List.isEmpty_iff.mp hE
    refine ⟨?_, ?_, ?_, hF4, ?_, ?_⟩
    · rw [hgEq, if_pos hE]
      dsimp only
      rw [List.length_map, List.length_range]
    · intro i c hi hc
      rw [hgEq, if_pos hE]
      dsimp only
      rw [range_map_getD texts.length _ i hi]
      rw [hres i, if_pos hi, hc]
      rfl
    · intro i hi hmiss
      exfalso
      have hfe : ((List.range texts.length).filter
          (fun i => (truthy (cache (cacheKey source target (texts.getD i "")))).isNone)) = [] := by
        have hmapnil : (((List.range texts.length).filter
            (fun i => (truthy (cache (cacheKey source target (texts.getD i "")))).isNone)).map
            (fun i => texts.getD i "")) = [] := by
          rw [← htxt]
          exact hnilT
        exact List.map_eq_nil_iff.mp hmapnil
      have hmem : i ∈ (List.range texts.length).filter
          (fun i => (truthy (cache (cacheKey source target (texts.getD i "")))).isNone) :=
        List.mem_filter.2 ⟨List.mem_range.2 hi, by rw [hmiss]; rfl⟩
      rw [hfe] at hmem
      exact List.not_mem_nil i hmem
    · intro x hx hmiss
      exfalso
      have hxf : x ∈ texts.filter (fun x => (truthy (cache (cacheKey source target x))).isNone) :=
        List.mem_filter.2 ⟨hx, by rw [hmiss]; rfl⟩
      rw [← htxtF, hnilT] at hxf
      exact List.not_mem_nil x hxf
    · intro k _
      rw [hgEq, if_pos hE]
  · have hndI : (scanCacheAux cache source target texts texts.length).uncachedIndices.Nodup := by
      rw [hidx]
      exact (List.nodup_range texts.length).filter _
    have hlenIT : (scanCacheAux cache source target texts texts.length).uncachedIndices.length =
        (scanCacheAux cache source target texts texts.length).uncachedTexts.length := by
      rw [htxt, hidx, List.length_map]
    obtain ⟨d1, d2, d3, d4⟩ := processBatchesG_spec backend source target f hBG
      (scanCacheAux cache source target texts texts.length).uncachedTexts.length
      (scanCacheAux cache source target texts texts.length).uncachedTexts
      (scanCacheAux cache source target texts texts.length).uncachedIndices
      (scanCacheAux cache source target texts texts.length).results cache
      (le_refl _) hlenIT hndI
    have hTmap : (scanCacheAux cache source target texts texts.length).uncachedTexts =
        ((scanCacheAux cache source target texts texts.length).uncachedIndices).map
          (fun i => texts.getD i "") := by
      rw [htxt, hidx]
    refine ⟨?_, ?_, ?_, hF4, ?_, ?_⟩
    · rw [hgEq, if_neg hE]
      dsimp only
      rw [List.length_map, List.length_range]
    · intro i c hi hc
      rw [hgEq, if_neg hE]
      dsimp only
      rw [range_map_getD texts.length _ i hi]
      have hnotin : i ∉ (scanCacheAux cache source target texts texts.length).uncachedIndices := by
        rw [hidx]
        intro hmem
        have hisn := (List.mem_filter.1 hmem).2
        rw [hc] at hisn
        simp at hisn
      rw [d1 i hnotin, hres i, if_pos hi, hc]
      rfl
    · intro i hi hmiss
      rw [hgEq, if_neg hE]
      dsimp only
      rw [range_map_getD texts.length _ i hi]
      have hmem : i ∈ (scanCacheAux cache source target texts texts.length).uncachedIndices := by
        rw [hidx]
        exact List.mem_filter.2 ⟨List.mem_range.2 hi, by rw [hmiss]; rfl⟩
      obtain ⟨g, hgl, hgx⟩ := List.mem_iff_getElem.1 hmem
      have hgD : (scanCacheAux cache source target texts texts.length).uncachedIndices.getD g 0
          = i := by
        rw [List.getD_eq_getElem _ 0 hgl]
        exact hgx
      have hgT : g < (scanCacheAux cache source target texts texts.length).uncachedTexts.length := by
        rw [← hlenIT]
        exact hgl
      have hd := d2 g hgT
      rw [hgD] at hd
      have hTg : (scanCacheAux cache source target texts texts.length).uncachedTexts.getD g ""
          = texts.getD i "" := by
        rw [hTmap, map_getD_str _ _ g hgl, hgD]
      rw [hTg] at hd
      rw [hd]
      rfl
    · intro x hx hmiss
      rw [hgEq, if_neg hE]
      dsimp only
      have hxT : x ∈ (scanCacheAux cache source target texts texts.length).uncachedTexts := by
        rw [htxtF]
        exact List.mem_filter.2 ⟨hx, by rw [hmiss]; rfl⟩
      exact d4 x hxT
    · intro k hk
      rw [hgEq, if_neg hE]
      dsimp only
      refine d3 k (fun y hy => ?_)
      rw [htxtF] at hy
      exact hk y (List.mem_filter.1 hy).1

theorem geminiTranslate_hit_singleton (backend2 : List String → String)
    (source target t : String) (C : String → Option String)
    (hC : C (cacheKey source target t) = some t) (ht : t ≠ "") :
    geminiTranslate backend2 [t] source target C = ([t], C) := by
  have h1 : truthy (C (cacheKey source target ([t].getD 0 ""))) = some t := by
    show truthy (C (cacheKey source target t)) = some t
    rw [hC]
    show (if t = "" then (none : Option String) else some t) = some t
    rw [if_neg ht]
  have hscan : scanCacheAux C source target [t] 1 =
      { results := fun j => if j = 0 then some t else none,
        uncachedTexts := [], uncachedIndices := [] } := by
    unfold scanCacheAux
    have hr1 : List.range 1 = [0] := by decide
    rw [hr1, List.foldl_cons, List.foldl_nil]
    unfold scanStep
    rw [h1]
  have hgEq2 : geminiTranslate backend2 [t] source target C =
      (if (scanCacheAux C source target [t] 1).uncachedTexts.isEmpty then
        ((List.range 1).map
          (fun i => ((scanCacheAux C source target [t] 1).results i).getD ""), C)
      else
        ((List.range 1).map (fun i =>
          ((processBatches backend2 source target
              (scanCacheAux C source target [t] 1).uncachedTexts.length
              (scanCacheAux C source target [t] 1).uncachedTexts
              (scanCacheAux C source target [t] 1).uncachedIndices
              (scanCacheAux C source target [t] 1).results C).1 i).getD ""),
         (processBatches backend2 source target
            (scanCacheAux C source target [t] 1).uncachedTexts.length
            (scanCacheAux C source target [t] 1).uncachedTexts
            (scanCacheAux C source target [t] 1).uncachedIndices
            (scanCacheAux C source target [t] 1).results C).2)) := rfl
  rw [hgEq2, hscan]
  rfl

theorem parsedLines_empty : parsedLines "" = [] := by decide

-- ───────── C2: identity fallback and its (missing) origin flag ─────────

/-- C2 counterexample: a run whose backend response contains zero
parseable lines and a run whose backend genuinely answers the numbered
line produce literally identical outputs on the same input, and both
return the source text: the identity fallback carries no distinct origin
flag anywhere in the returned value, so it cannot be flagged differently
from an oracle translation. -/
theorem c2_fallback_indistinguishable :
    (geminiTranslate blankBackend ["xa"] "vi" "en" emptyCache).1 =
      (geminiTranslate oneLineBackend ["xa"] "vi" "en" emptyCache).1 ∧
    (geminiTranslate blankBackend ["xa"] "vi" "en" emptyCache).2 (cacheKey "vi" "en" "xa") =
      (geminiTranslate oneLineBackend ["xa"] "vi" "en" emptyCache).2
        (cacheKey "vi" "en" "xa") ∧
    (geminiTranslate blankBackend ["xa"] "vi" "en" emptyCache).1 = ["xa"] := by
  refine ⟨?_, ?_, ?_⟩
  · decide
  · decide
  · decide

/-- C2 (amended): when every backend response parses to fewer lines than
requested (here: to none at all), each uncached slot of the translate
output equals its own source text, and the identity value is written
into the cache under that text's key; the output length is preserved.
No origin flag distinguishes these fallback entries. -/
theorem c2_identity_fallback (backend : List String → String) (source target : String)
    (texts : List String) (cache : String → Option String)
    (hblank : ∀ batch, parsedLines (backend batch) = []) :
    (geminiTranslate backend texts source target cache).1.length = texts.length ∧
    (∀ i, i < texts.length →
      truthy (cache (cacheKey source target (texts.getD i ""))) = none →
      (geminiTranslate backend texts source target cache).1.getD i "" = texts.getD i "") ∧
    (∀ x, x ∈ texts → truthy (cache (cacheKey source target x)) = none →
      (geminiTranslate backend texts source target cache).2 (cacheKey source target x) =
        some x) := by
  have hB : ∀ batch j, j < batch.length →
      lineResult (parsedLines (backend batch)) batch j = (fun x => x) (batch.getD j "") := by
    intro batch j _
    rw [hblank batch]
    rfl
  obtain ⟨l1, _, l3, _, l5, _⟩ := geminiTranslate_contract backend source target
    (fun x => x) hB texts cache
  exact ⟨l1, fun i hi hm => l3 i hi hm, fun x hx hm => l5 x hx hm⟩

/-- C2 witness: the amended fallback theorem applied to the blank
backend on one uncached text. -/
theorem c2_identity_fallback_witness :
    (∀ batch, parsedLines (blankBackend batch) = []) ∧
    ((geminiTranslate blankBackend ["xa"] "vi" "en" emptyCache).1.length = 1 ∧
     (∀ i, i < (["xa"] : List String).length →
       truthy (emptyCache (cacheKey "vi" "en" ((["xa"] : List String).getD i ""))) = none →
       (geminiTranslate blankBackend ["xa"] "vi" "en" emptyCache).1.getD i "" =
         (["xa"] : List String).getD i "") ∧
     (∀ x, x ∈ (["xa"] : List String) →
       truthy (emptyCache (cacheKey "vi" "en" x)) = none →
       (geminiTranslate blankBackend ["xa"] "vi" "en" emptyCache).2 (cacheKey "vi" "en" x) =
         some x)) :=
  ⟨fun batch => parsedLines_empty,
    c2_identity_fallback blankBackend "vi" "en" ["xa"] emptyCache
      (fun batch => parsedLines_empty)⟩

-- ───────── C10: the fallback is cached, with one falsy exception ─────────

/-- C10 counterexample: for the empty text the identity fallback IS
written into the cache under the genuine key, but the cached empty
string is falsy, so a subsequent call for the same text is NOT a cache
hit: its scan lists the text as uncached again. -/
theorem c10_empty_text_recached_counterexample :
    (geminiTranslate blankBackend [""] "vi" "en" emptyCache).2 (cacheKey "vi" "en" "") =
      some "" ∧
    (scanCache (geminiTranslate blankBackend [""] "vi" "en" emptyCache).2 "vi" "en"
      [""]).uncachedTexts = [""] := by
  constructor
  · decide
  · decide

/-- C10 (amended): for every NONEMPTY text missing from the cache, a
call whose backend response parses to no lines returns the text itself,
writes that identity value into the cache under the genuine translation
key, and every subsequent call for the same text — under ANY backend —
is answered purely from the cache: it returns the passthrough
translation and leaves the cache untouched, indistinguishable from an
oracle hit. -/
theorem c10_cached_fallback (backend : List String → String) (source target t : String)
    (cache : String → Option String)
    (hblank : ∀ batch, parsedLines (backend batch) = [])
    (hmiss : cache (cacheKey source target t) = none)
    (ht : t ≠ "") :
    (geminiTranslate backend [t] source target cache).1 = [t] ∧
    (geminiTranslate backend [t] source target cache).2 (cacheKey source target t) = some t ∧
    (∀ backend2, geminiTranslate backend2 [t] source target
      (geminiTranslate backend [t] source target cache).2 =
      ([t], (geminiTranslate backend [t] source target cache).2)) := by
  have hB : ∀ batch j, j < batch.length →
      lineResult (parsedLines (backend batch)) batch j = (fun x => x) (batch.getD j "") := by
    intro batch j _
    rw [hblank batch]
    rfl
  obtain ⟨l1, _, l3, _, l5, _⟩ := geminiTranslate_contract backend source target
    (fun x => x) hB [t] cache
  have hm0 : truthy (cache (cacheKey source target (([t] : List String).getD 0 ""))) = none := by
    show truthy (cache (cacheKey source target t)) = none
    rw [hmiss]
    rfl
  have hout0 : (geminiTranslate backend [t] source target cache).1.getD 0 "" = t :=
    l3 0 Nat.zero_lt_one hm0
  have hcache : (geminiTranslate backend [t] source target cache).2
      (cacheKey source target t) = some t :=
    l5 t (by simp) (by rw [hmiss]; rfl)
  have hlen1 : (geminiTranslate backend [t] source target cache).1.length = 1 := l1
  have hout : (geminiTranslate backend [t] source target cache).1 = [t] := by
    cases hl : (geminiTranslate backend [t] source target cache).1 with
    | nil =>
      rw [hl] at hlen1
      simp at hlen1
    | cons a rest =>
      rw [hl] at hlen1 hout0
      have hrest : rest = [] := by
        rw [List.length_cons] at hlen1
        exact List.eq_nil_of_length_eq_zero (by omega)
      have ha : a = t := by simpa using hout0
      rw [hrest, ha]
  exact ⟨hout, hcache, fun backend2 =>
    geminiTranslate_hit_singleton backend2 source target t _ hcache ht⟩

/-- C10 witness: the amended theorem applied to the blank backend, a
nonempty text and the empty cache. -/
theorem c10_cached_fallback_witness :
    (∀ batch, parsedLines (blankBackend batch) = []) ∧
    emptyCache (cacheKey "vi" "en" "xa") = none ∧ "xa" ≠ "" ∧
    ((geminiTranslate blankBackend ["xa"] "vi" "en" emptyCache).1 = ["xa"] ∧
     (geminiTranslate blankBackend ["xa"] "vi" "en" emptyCache).2 (cacheKey "vi" "en" "xa") =
       some "xa" ∧
     (∀ backend2, geminiTranslate backend2 ["xa"] "vi" "en"
       (geminiTranslate blankBackend ["xa"] "vi" "en" emptyCache).2 =
       (["xa"], (geminiTranslate blankBackend ["xa"] "vi" "en" emptyCache).2))) :=
  ⟨fun batch => parsedLines_empty, rfl, by decide,
    c10_cached_fallback blankBackend "vi" "en" "xa" emptyCache
      (fun batch => parsedLines_empty) rfl (by decide)⟩

-- ───────── C6: the translate contract ─────────

/-- C6 counterexample: a text whose key IS present in the cache but with
an empty stored value is not answered from the cache: the scan treats
the falsy entry as absent and lists the text to be re-sent. -/
theorem c6_cached_empty_value_counterexample :
    (fun k => if k = cacheKey "vi" "en" "xa" then some "" else (none : Option String))
      (cacheKey "vi" "en" "xa") = some "" ∧
    (scanCache
      (fun k => if k = cacheKey "vi" "en" "xa" then some "" else (none : Option String))
      "vi" "en" ["xa"]).uncachedTexts = ["xa"] := by
  constructor
  · decide
  · decide

/-- C6 (amended): for both translate clients, under a backend acting as
a translation function on texts: the output list has the length of the
input; a slot whose key holds a truthy cached value is answered with
exactly that value; a slot with no truthy cached value is answered with
the backend translation of its own text; the texts batched to the
backend are exactly the input texts without a truthy cached value, in
order; every freshly translated text's result is written into the cache
under the source-colon-target-colon-text key; and cache entries under
other keys are untouched. -/
theorem c6_translate_contract
    (backendP : List String → String) (backendL : List String → List String)
    (source target : String) (f fG : String → String)
    (hB : ∀ batch j, j < batch.length →
      lineResult (parsedLines (backendP batch)) batch j = f (batch.getD j ""))
    (hBG : ∀ batch, (backendL batch).length = batch.length ∧
      ∀ j, j < batch.length → (backendL batch).getD j "" = fG (batch.getD j ""))
    (texts : List String) (cache : String → Option String) :
    ((geminiTranslate backendP texts source target cache).1.length = texts.length ∧
     (∀ i c, i < texts.length →
       truthy (cache (cacheKey source target (texts.getD i ""))) = some c →
       (geminiTranslate backendP texts source target cache).1.getD i "" = c) ∧
     (∀ i, i < texts.length →
       truthy (cache (cacheKey source target (texts.getD i ""))) = none →
       (geminiTranslate backendP texts source target cache).1.getD i "" =
         f (texts.getD i "")) ∧
     (scanCache cache source target texts).uncachedTexts =
       texts.filter (fun x => (truthy (cache (cacheKey source target x))).isNone) ∧
     (∀ x, x ∈ texts → truthy (cache (cacheKey source target x)) = none →
       (geminiTranslate backendP texts source target cache).2 (cacheKey source target x) =
         some (f x)) ∧
     (∀ k, (∀ x, x ∈ texts → k ≠ cacheKey source target x) →
       (geminiTranslate backendP texts source target cache).2 k = cache k)) ∧
    ((googleTranslate backendL texts source target cache).1.length = texts.length ∧
     (∀ i c, i < texts.length →
       truthy (cache (cacheKey source target (texts.getD i ""))) = some c →
       (googleTranslate backendL texts source target cache).1.getD i "" = c) ∧
     (∀ i, i < texts.length →
       truthy (cache (cacheKey source target (texts.getD i ""))) = none →
       (googleTranslate backendL texts source target cache).1.getD i "" =
         fG (texts.getD i "")) ∧
     (scanCache cache source target texts).uncachedTexts =
       texts.filter (fun x => (truthy (cache (cacheKey source target x))).isNone) ∧
     (∀ x, x ∈ texts → truthy (cache (cacheKey source target x)) = none →
       (googleTranslate backendL texts source target cache).2 (cacheKey source target x) =
         some (fG x)) ∧
     (∀ k, (∀ x, x ∈ texts → k ≠ cacheKey source target x) →
       (googleTranslate backendL texts source target cache).2 k = cache k)) :=
  ⟨geminiTranslate_contract backendP source target f hB texts cache,
   googleTranslate_contract backendL source target fG hBG texts cache⟩

/-- C6 witness: the contract applied to the blank prompt backend (whose
induced translation function is the identity fallback) and the identity
list backend, on one uncached text. -/
theorem c6_translate_contract_witness :
    (∀ batch j, j < batch.length →
      lineResult (parsedLines (blankBackend batch)) batch j = batch.getD j "") ∧
    (∀ batch : List String, batch.length = batch.length ∧
      ∀ j, j < batch.length → batch.getD j "" = batch.getD j "") ∧
    (((geminiTranslate blankBackend ["xa"] "vi" "en" emptyCache).1.length = 1 ∧
      (∀ i c, i < (["xa"] : List String).length →
        truthy (emptyCache (cacheKey "vi" "en" ((["xa"] : List String).getD i ""))) = some c →
        (geminiTranslate blankBackend ["xa"] "vi" "en" emptyCache).1.getD i "" = c) ∧
      (∀ i, i < (["xa"] : List String).length →
        truthy (emptyCache (cacheKey "vi" "en" ((["xa"] : List String).getD i ""))) = none →
        (geminiTranslate blankBackend ["xa"] "vi" "en" emptyCache).1.getD i "" =
          (["xa"] : List String).getD i "") ∧
      (scanCache emptyCache "vi" "en" ["xa"]).uncachedTexts =
        (["xa"] : List String).filter
          (fun x => (truthy (emptyCache (cacheKey "vi" "en" x))).isNone) ∧
      (∀ x, x ∈ (["xa"] : List String) →
        truthy (emptyCache (cacheKey "vi" "en" x)) = none →
        (geminiTranslate blankBackend ["xa"] "vi" "en" emptyCache).2 (cacheKey "vi" "en" x) =
          some x) ∧
      (∀ k, (∀ x, x ∈ (["xa"] : List String) → k ≠ cacheKey "vi" "en" x) →
        (geminiTranslate blankBackend ["xa"] "vi" "en" emptyCache).2 k = emptyCache k)) ∧
     ((googleTranslate (fun b => b) ["xa"] "vi" "en" emptyCache).1.length = 1 ∧
      (∀ i c, i < (["xa"] : List String).length →
        truthy (emptyCache (cacheKey "vi" "en" ((["xa"] : List String).getD i ""))) = some c →
        (googleTranslate (fun b => b) ["xa"] "vi" "en" emptyCache).1.getD i "" = c) ∧
      (∀ i, i < (["xa"] : List String).length →
        truthy (emptyCache (cacheKey "vi" "en" ((["xa"] : List String).getD i ""))) = none →
        (googleTranslate (fun b => b) ["xa"] "vi" "en" emptyCache).1.getD i "" =
          (["xa"] : List String).getD i "") ∧
      (scanCache emptyCache "vi" "en" ["xa"]).uncachedTexts =
        (["xa"] : List String).filter
          (fun x => (truthy (emptyCache (cacheKey "vi" "en" x))).isNone) ∧
      (∀ x, x ∈ (["xa"] : List String) →
        truthy (emptyCache (cacheKey "vi" "en" x)) = none →
        (googleTranslate (fun b => b) ["xa"] "vi" "en" emptyCache).2 (cacheKey "vi" "en" x) =
          some x) ∧
      (∀ k, (∀ x, x ∈ (["xa"] : List String) → k ≠ cacheKey "vi" "en" x) →
        (googleTranslate (fun b => b) ["xa"] "vi" "en" emptyCache).2 k = emptyCache k))) :=
  ⟨fun batch j _ => by
      have h : parsedLines (blankBackend batch) = [] := parsedLines_empty
      rw [h]
      rfl,
   fun batch => ⟨rfl, fun j _ => rfl⟩,
   c6_translate_contract blankBackend (fun b => b) "vi" "en" (fun x => x) (fun x => x)
     (fun batch j _ => by
       have h : parsedLines (blankBackend batch) = [] := parsedLines_empty
       rw [h]
       rfl)
     (fun batch => ⟨rfl, fun j _ => rfl⟩)
     ["xa"] emptyCache⟩
